import Mathlib

/-!
Verification of `allocator.c`: a fixed-capacity first-fit memory allocator with a
doubly linked intrusive free list, bump allocation at a high-water mark `used`,
and forward coalescing of physically adjacent free blocks.

Shallow embedding conventions:
* Pointers are byte offsets from the pool base (`Nat`); the null pointer is
  `none : Option Nat`.  A block's payload pointer is its header offset plus
  `HEADER` (the C code's `(void *)(metadata + 1)`).
* The header store `hdrs : Nat → Header` models the `md` structs living in the
  pool, keyed by the header's offset; `mem : Nat → Nat` models the payload bytes.
  Sizes and offsets are mathematical naturals (the spec treats sizes as
  language-neutral nonnegative integers; `size_t` wraparound is out of scope).
* The free-list scan in `mymalloc` is a while loop in C; it is embedded with an
  explicit fuel of `used + 1`, which under the free-list invariant strictly
  exceeds the length of the free list (each listed block occupies at least
  `HEADER` bytes below `used`), so the fuel never runs out on well-formed states.
-/

/-- `sizeof(md)`: size in bytes of the block header (a `size_t`, an `int` with
padding, and two pointers on an LP64 platform). -/
def HEADER : Nat := 32

/-- The pool capacity hard-coded in `mymalloc`: `128 * 1024 * 1024` bytes. -/
def CAP : Nat := 128 * 1024 * 1024

/-- The `md` struct: per-block metadata stored immediately before the payload. -/
structure Header where
  size : Nat
  check_free : Bool
  next : Option Nat
  prev : Option Nat
deriving Repr, DecidableEq

/-- The allocator's global state: `used` bytes consumed from the pool, the header
store, the head of the free list, and the payload byte memory. -/
structure AllocState where
  used : Nat
  hdrs : Nat → Header
  free_list : Option Nat
  mem : Nat → Nat

/-- Store a header value at offset `k`. -/
def updH (f : Nat → Header) (k : Nat) (v : Header) : Nat → Header :=
  fun x => if x = k then v else f x

/-- `allocator_init(newbase)`: record the base, reset `used` and the free list.
The pool's initial contents (`h`, `m`) are arbitrary junk left by the caller. -/
def allocator_init (h : Nat → Header) (m : Nat → Nat) : AllocState :=
  { used := 0, hdrs := h, free_list := none, mem := m }

/-- `allocator_reset()`: discard all allocations without zeroing memory. -/
def allocator_reset (s : AllocState) : AllocState :=
  { s with used := 0, free_list := none }

/-- `insert_into_free_list(block)`: mark the block free and push it onto the head
of the free list, patching the old head's `prev` link. -/
def insert_into_free_list (s : AllocState) (b : Nat) : AllocState :=
  let h1 := updH s.hdrs b
    { s.hdrs b with check_free := true, next := s.free_list, prev := none }
  match s.free_list with
  | some h => { s with hdrs := updH h1 h { h1 h with prev := some b }, free_list := some b }
  | none => { s with hdrs := h1, free_list := some b }

/-- `remove_from_free_list(block)`: unlink the block using its own `prev`/`next`
links, patching the neighbours' links or the list head. -/
def remove_from_free_list (s : AllocState) (b : Nat) : AllocState :=
  let s1 :=
    match (s.hdrs b).prev with
    | some p => { s with hdrs := updH s.hdrs p { s.hdrs p with next := (s.hdrs b).next } }
    | none => { s with free_list := (s.hdrs b).next }
  match (s1.hdrs b).next with
  | some n => { s1 with hdrs := updH s1.hdrs n { s1.hdrs n with prev := (s1.hdrs b).prev } }
  | none => s1

/-- First statement of `merge_blocks(block)`: absorb the physically next block
(`(md *)((char *)block + sizeof(md) + block->size)`) when it lies below
`base + used` and is free. -/
def merge_fwd (s : AllocState) (b : Nat) : AllocState :=
  let next_block := b + HEADER + (s.hdrs b).size
  if next_block < s.used ∧ (s.hdrs next_block).check_free = true then
    let s2 := remove_from_free_list s next_block
    { s2 with
      hdrs := updH s2.hdrs b
        { s2.hdrs b with size := (s2.hdrs b).size + (HEADER + (s2.hdrs next_block).size) } }
  else s

/-- Second statement of `merge_blocks(block)`: the (list-order based) backward
merge with `block->prev`, executed on the state left by the forward merge. -/
def merge_bwd (s : AllocState) (b : Nat) : AllocState :=
  match (s.hdrs b).prev with
  | some p =>
    if (s.hdrs p).check_free = true then
      let s2 := remove_from_free_list s p
      { s2 with
        hdrs := updH s2.hdrs p
          { s2.hdrs p with size := (s2.hdrs p).size + (HEADER + (s2.hdrs b).size) } }
    else s
  | none => s

/-- `merge_blocks(block)`: the forward merge followed by the backward attempt. -/
def merge_blocks (s : AllocState) (b : Nat) : AllocState :=
  merge_bwd (merge_fwd s b) b

/-- The first-fit scan loop of `mymalloc` (`while (current) ...`), with explicit
fuel; it follows `next` links until a block with `size ≥` the request is found. -/
def findFit (s : AllocState) (size : Nat) : Nat → Option Nat → Option Nat
  | _, none => none
  | 0, some _ => none
  | fuel + 1, some c =>
    if size ≤ (s.hdrs c).size then some c
    else findFit s size fuel (s.hdrs c).next

/-- `mymalloc(size)`: first-fit over the free list, else bump allocation at
`base + used`, failing (with no state change) when `used + sizeof(md) + size`
would exceed the 128 MiB pool. -/
def mymalloc (s : AllocState) (size : Nat) : Option Nat × AllocState :=
  let total := HEADER + size
  match findFit s size (s.used + 1) s.free_list with
  | some c =>
    let s1 := remove_from_free_list s c
    (some (c + HEADER),
     { s1 with hdrs := updH s1.hdrs c { s1.hdrs c with check_free := false } })
  | none =>
    if s.used + total > CAP then (none, s)
    else
      (some (s.used + HEADER),
       { s with
         hdrs := updH s.hdrs s.used { s.hdrs s.used with size := size, check_free := false },
         used := s.used + total })

/-- `myfree(ptr)`: no-op on null; otherwise recover the header one `md` before
the payload, insert it into the free list, and coalesce. -/
def myfree (s : AllocState) (p : Option Nat) : AllocState :=
  match p with
  | none => s
  | some ptr =>
    let b := ptr - HEADER
    merge_blocks (insert_into_free_list s b) b

/-- `memcpy(dst, src, n)` on the payload byte memory (regions are disjoint at
every call site reachable under the allocator invariant). -/
def memcpy (s : AllocState) (dst src n : Nat) : AllocState :=
  { s with mem := fun i => if dst ≤ i ∧ i < dst + n then s.mem (src + (i - dst)) else s.mem i }

/-- `myrealloc(ptr, size)`: `size == 0` frees; null `ptr` allocates; a tail block
(payload end equal to `base + used`) is resized in place by moving `used`;
otherwise allocate fresh, copy `min(old_size, size)` bytes, free the old block. -/
def myrealloc (s : AllocState) (p : Option Nat) (size : Nat) : Option Nat × AllocState :=
  if size = 0 then
    (none, myfree s p)
  else
    match p with
    | none => mymalloc s size
    | some ptr =>
      let b := ptr - HEADER
      let old_size := (s.hdrs b).size
      if ptr + old_size = s.used then
        let s1 := { s with
          used := if old_size < size then s.used + (size - old_size)
                  else s.used - (old_size - size) }
        (some ptr, { s1 with hdrs := updH s1.hdrs b { s1.hdrs b with size := size } })
      else
        match mymalloc s size with
        | (some new_ptr, s1) =>
          (some new_ptr, myfree (memcpy s1 new_ptr ptr (min old_size size)) (some ptr))
        | (none, s1) => (none, s1)

/-! ## Abstractions: the physical block layout and the free-list shape -/

/-- `tilesOk h e o l`: the offsets in `l` are exactly the headers of the
contiguous blocks tiling `[o, e)`: each block starts where the previous one
ended, and the last block ends exactly at `e`. -/
def tilesOk (h : Nat → Header) (e : Nat) : Nat → List Nat → Prop
  | o, [] => o = e
  | o, b :: l => b = o ∧ tilesOk h e (o + HEADER + (h o).size) l

/-- `chainSeg h hd pv l hdE pvE`: starting from head pointer `hd` with incoming
previous pointer `pv`, the doubly linked list spells out exactly `l` and exits
with forward pointer `hdE` and last-node pointer `pvE`. -/
def chainSeg (h : Nat → Header) :
    Option Nat → Option Nat → List Nat → Option Nat → Option Nat → Prop
  | hd, pv, [], hdE, pvE => hdE = hd ∧ pvE = pv
  | hd, pv, x :: l, hdE, pvE =>
    hd = some x ∧ (h x).prev = pv ∧ chainSeg h (h x).next (some x) l hdE pvE

/-- `chainOk h hd l`: the complete free list reachable from `hd` is exactly `l`,
with consistent `prev` links and a null terminator. -/
def chainOk (h : Nat → Header) (hd : Option Nat) (l : List Nat) : Prop :=
  ∃ pvE, chainSeg h hd none l none pvE

/-- The allocator invariant, relative to the physical block list `tl` and the
free list `fl`: blocks tile `[0, used)`, the free list is a well-formed doubly
linked list of distinct blocks, and a block is in the free list exactly when its
`check_free` flag is set. -/
structure AllocInv (s : AllocState) (tl fl : List Nat) : Prop where
  tiles : tilesOk s.hdrs s.used 0 tl
  chain : chainOk s.hdrs s.free_list fl
  fl_nodup : fl.Nodup
  fl_sub : ∀ b ∈ fl, b ∈ tl
  flags : ∀ b ∈ tl, ((s.hdrs b).check_free = true ↔ b ∈ fl)

/-- `b` is the header offset of one of the blocks currently tiling the pool. -/
def InTiling (s : AllocState) (b : Nat) : Prop :=
  ∃ tl, tilesOk s.hdrs s.used 0 tl ∧ b ∈ tl

/-- `b` heads a currently allocated block: callers may free or realloc exactly
these (anything else is undefined behaviour by the spec's contract). -/
def AllocatedAt (s : AllocState) (b : Nat) : Prop :=
  InTiling s b ∧ (s.hdrs b).check_free = false

/-- One legal call to the allocator's public surface. -/
inductive AllocStep : AllocState → AllocState → Prop
  | malloc (s : AllocState) (n : Nat) : AllocStep s (mymalloc s n).2
  | free_null (s : AllocState) : AllocStep s (myfree s none)
  | free (s : AllocState) (b : Nat) (hb : AllocatedAt s b) :
      AllocStep s (myfree s (some (b + HEADER)))
  | realloc_null (s : AllocState) (n : Nat) : AllocStep s (myrealloc s none n).2
  | realloc (s : AllocState) (b n : Nat) (hb : AllocatedAt s b) :
      AllocStep s (myrealloc s (some (b + HEADER)) n).2
  | reset (s : AllocState) : AllocStep s (allocator_reset s)

/-- States reachable from `allocator_init` by legal calls. -/
inductive AllocReach : AllocState → Prop
  | init (h : Nat → Header) (m : Nat → Nat) : AllocReach (allocator_init h m)
  | step (s t : AllocState) : AllocReach s → AllocStep s t → AllocReach t

/-! ## Concrete states used to instantiate the theorems -/

/-- `allocator_init` on a zero-filled pool. -/
def sInit : AllocState := allocator_init (fun _ => ⟨0, false, none, none⟩) (fun _ => 0)

/-- One free block of payload 32 at offset 0; `used = 64`. -/
def sOne : AllocState :=
  { used := 64,
    hdrs := fun x => if x = 0 then ⟨32, true, none, none⟩ else ⟨0, false, none, none⟩,
    free_list := some 0,
    mem := fun _ => 0 }

/-- One allocated block of payload 32 at offset 0; `used = 64`. -/
def sOneAlloc : AllocState :=
  { used := 64,
    hdrs := fun x => if x = 0 then ⟨32, false, none, none⟩ else ⟨0, false, none, none⟩,
    free_list := none,
    mem := fun _ => 0 }

/-- Two physically adjacent allocated blocks of payload 32 at offsets 0 and 64;
`used = 128`. -/
def sTwo : AllocState :=
  { used := 128,
    hdrs := fun x => if x = 0 then ⟨32, false, none, none⟩
      else if x = 64 then ⟨32, false, none, none⟩ else ⟨0, false, none, none⟩,
    free_list := none,
    mem := fun _ => 0 }

/-- Two adjacent 32-byte blocks allocated from `sInit` and then freed
head-then-tail (`free(p1); free(p2)`). -/
def c5state : AllocState :=
  myfree (myfree (mymalloc (mymalloc sInit 32).2 32).2 (some 32)) (some 96)

/-! ## Lemmas about the physical tiling -/

theorem HEADER_pos : 0 < HEADER := by decide

theorem tilesOk_le {h : Nat → Header} {e o : Nat} {l : List Nat}
    (ht : tilesOk h e o l) : o ≤ e := by
  induction l generalizing o with
  | nil => simp only [tilesOk] at ht; omega
  | cons b l ih =>
    obtain ⟨-, ht⟩ := ht
    have := ih ht
    have hH := HEADER_pos
    omega

theorem tilesOk_nil_of_end {h : Nat → Header} {e : Nat} {l : List Nat}
    (ht : tilesOk h e e l) : l = [] := by
  cases l with
  | nil => rfl
  | cons b l =>
    obtain ⟨-, ht⟩ := ht
    have := tilesOk_le ht
    have hH := HEADER_pos
    omega

theorem tilesOk_mem_lb {h : Nat → Header} {e o x : Nat} {l : List Nat}
    (ht : tilesOk h e o l) (hx : x ∈ l) : o ≤ x := by
  induction l generalizing o with
  | nil => cases hx
  | cons b l ih =>
    obtain ⟨rfl, ht⟩ := ht
    rcases List.mem_cons.1 hx with rfl | hx
    · exact le_refl x
    · have := ih ht hx
      have hH := HEADER_pos
      omega

theorem tilesOk_mem_ub {h : Nat → Header} {e o x : Nat} {l : List Nat}
    (ht : tilesOk h e o l) (hx : x ∈ l) : x + HEADER + (h x).size ≤ e := by
  induction l generalizing o with
  | nil => cases hx
  | cons b l ih =>
    obtain ⟨rfl, ht⟩ := ht
    rcases List.mem_cons.1 hx with rfl | hx
    · exact tilesOk_le ht
    · exact ih ht hx

theorem tilesOk_pairwise {h : Nat → Header} {e o : Nat} {l : List Nat}
    (ht : tilesOk h e o l) : l.Pairwise (· < ·) := by
  induction l generalizing o with
  | nil => exact List.Pairwise.nil
  | cons b l ih =>
    obtain ⟨rfl, ht⟩ := ht
    refine List.Pairwise.cons (fun y hy => ?_) (ih ht)
    have := tilesOk_mem_lb ht hy
    have hH := HEADER_pos
    omega

theorem tilesOk_nodup {h : Nat → Header} {e o : Nat} {l : List Nat}
    (ht : tilesOk h e o l) : l.Nodup :=
  (tilesOk_pairwise ht).imp Nat.ne_of_lt

theorem tilesOk_congr {h h2 : Nat → Header} {e o : Nat} {l : List Nat}
    (hsz : ∀ x ∈ l, (h2 x).size = (h x).size) (ht : tilesOk h e o l) :
    tilesOk h2 e o l := by
  induction l generalizing o with
  | nil => exact ht
  | cons b l ih =>
    obtain ⟨rfl, ht⟩ := ht
    refine ⟨rfl, ?_⟩
    rw [hsz b (List.mem_cons_self b l)]
    exact ih (fun x hx => hsz x (List.mem_cons_of_mem b hx)) ht

theorem tilesOk_length {h : Nat → Header} {e o : Nat} {l : List Nat}
    (ht : tilesOk h e o l) : HEADER * l.length + o ≤ e := by
  induction l generalizing o with
  | nil =>
    simp only [tilesOk] at ht
    simp only [List.length_nil, Nat.mul_zero, Nat.zero_add]
    omega
  | cons b l ih =>
    obtain ⟨rfl, ht⟩ := ht
    have := ih ht
    simp only [List.length_cons]
    have hH := HEADER_pos
    have : HEADER * (l.length + 1) + b = HEADER * l.length + (b + HEADER) := by ring
    omega

theorem tilesOk_decomp {h : Nat → Header} {e o x : Nat} {l : List Nat}
    (ht : tilesOk h e o l) (hx : x ∈ l) :
    ∃ l1 l2, l = l1 ++ x :: l2 ∧ tilesOk h e (x + HEADER + (h x).size) l2 ∧
      ∀ y ∈ l1, y < x := by
  induction l generalizing o with
  | nil => cases hx
  | cons b l ih =>
    obtain ⟨rfl, ht⟩ := ht
    rcases List.mem_cons.1 hx with rfl | hx
    · exact ⟨[], l, rfl, ht, fun y hy => (List.not_mem_nil y hy).elim⟩
    · obtain ⟨l1, l2, rfl, ht2, hlt⟩ := ih ht hx
      refine ⟨b :: l1, l2, rfl, ht2, fun y hy => ?_⟩
      rcases List.mem_cons.1 hy with hyb | hy2
      · have hlow := tilesOk_mem_lb ht hx
        have hH := HEADER_pos
        omega
      · exact hlt y hy2

theorem tilesOk_succ {h : Nat → Header} {e o x : Nat} {l : List Nat}
    (ht : tilesOk h e o l) (hx : x ∈ l) (hlt : x + HEADER + (h x).size < e) :
    ∃ l1 l2, l = l1 ++ x :: (x + HEADER + (h x).size) :: l2 ∧ ∀ y ∈ l1, y < x := by
  obtain ⟨l1, l2, rfl, ht2, hl1⟩ := tilesOk_decomp ht hx
  cases l2 with
  | nil =>
    simp only [tilesOk] at ht2
    omega
  | cons c l2 =>
    obtain ⟨rfl, -⟩ := ht2
    exact ⟨l1, l2, rfl, hl1⟩

theorem tilesOk_last {h : Nat → Header} {e o x : Nat} {l : List Nat}
    (ht : tilesOk h e o l) (hx : x ∈ l) (hend : x + HEADER + (h x).size = e) :
    ∃ l1, l = l1 ++ [x] ∧ ∀ y ∈ l1, y < x := by
  obtain ⟨l1, l2, rfl, ht2, hl1⟩ := tilesOk_decomp ht hx
  rw [hend] at ht2
  rw [tilesOk_nil_of_end ht2]
  exact ⟨l1, rfl, hl1⟩

theorem tilesOk_merge {h h2 : Nat → Header} {e o b nb : Nat} {l1 l2 : List Nat}
    (ht : tilesOk h e o (l1 ++ b :: nb :: l2)) (hnb : nb = b + HEADER + (h b).size)
    (h2b : (h2 b).size = (h b).size + (HEADER + (h nb).size))
    (hoth : ∀ x ∈ l1 ++ b :: nb :: l2, x ≠ b → (h2 x).size = (h x).size) :
    tilesOk h2 e o (l1 ++ b :: l2) := by
  induction l1 generalizing o with
  | nil =>
    obtain ⟨rfl, ht⟩ := ht
    obtain ⟨hnb2, ht⟩ := ht
    refine ⟨rfl, ?_⟩
    have hH := HEADER_pos
    have hlb : ∀ x ∈ l2, b < x := by
      intro x hx
      have := tilesOk_mem_lb ht hx
      omega
    have hidx : b + HEADER + (h2 b).size =
        b + HEADER + (h b).size + HEADER + (h (b + HEADER + (h b).size)).size := by
      rw [h2b, ← hnb]
      omega
    rw [hidx]
    refine tilesOk_congr (fun x hx => ?_) ht
    exact hoth x (by simp [hx]) (Nat.ne_of_gt (hlb x hx))
  | cons a l1 ih =>
    rw [List.cons_append] at ht
    obtain ⟨rfl, ht⟩ := ht
    have hH := HEADER_pos
    have hb_mem : b ∈ l1 ++ b :: nb :: l2 := by simp
    have hab : a < b := by
      have := tilesOk_mem_lb ht hb_mem
      omega
    rw [List.cons_append]
    refine ⟨rfl, ?_⟩
    rw [hoth a (by simp) (by omega)]
    exact ih ht (fun x hx hxb => hoth x (by simp [hx]) hxb)

theorem tilesOk_bump {h h2 : Nat → Header} {e o n : Nat} {l : List Nat}
    (ht : tilesOk h e o l) (hsz : ∀ x ∈ l, (h2 x).size = (h x).size)
    (hnew : (h2 e).size = n) : tilesOk h2 (e + HEADER + n) o (l ++ [e]) := by
  induction l generalizing o with
  | nil =>
    simp only [tilesOk] at ht
    subst ht
    exact ⟨rfl, by simp only [tilesOk, hnew]⟩
  | cons b l ih =>
    obtain ⟨rfl, ht⟩ := ht
    rw [List.cons_append]
    refine ⟨rfl, ?_⟩
    rw [hsz b (List.mem_cons_self b l)]
    exact ih ht (fun x hx => hsz x (List.mem_cons_of_mem b hx))

theorem tilesOk_resize {h h2 : Nat → Header} {e o b n : Nat} {l : List Nat}
    (ht : tilesOk h e o (l ++ [b])) (hsz : ∀ x ∈ l, (h2 x).size = (h x).size)
    (hb : (h2 b).size = n) : tilesOk h2 (b + HEADER + n) o (l ++ [b]) := by
  induction l generalizing o with
  | nil =>
    obtain ⟨rfl, -⟩ := ht
    exact ⟨rfl, by simp only [tilesOk, hb]⟩
  | cons a l ih =>
    rw [List.cons_append] at ht
    obtain ⟨rfl, ht⟩ := ht
    rw [List.cons_append]
    refine ⟨rfl, ?_⟩
    rw [hsz a (List.mem_cons_self a l)]
    exact ih ht (fun x hx => hsz x (List.mem_cons_of_mem a hx))

theorem tilesOk_cover {h : Nat → Header} {e o i : Nat} {l : List Nat}
    (ht : tilesOk h e o l) (hi1 : o ≤ i) (hi2 : i < e) :
    ∃! b, b ∈ l ∧ b ≤ i ∧ i < b + HEADER + (h b).size := by
  induction l generalizing o with
  | nil =>
    simp only [tilesOk] at ht
    omega
  | cons b l ih =>
    obtain ⟨rfl, ht⟩ := ht
    by_cases hcase : i < b + HEADER + (h b).size
    · refine ⟨b, ⟨List.mem_cons_self b l, hi1, hcase⟩, ?_⟩
      rintro y ⟨hy, hyi, hiy⟩
      rcases List.mem_cons.1 hy with rfl | hy2
      · rfl
      · have := tilesOk_mem_lb ht hy2
        omega
    · have hlo : b + HEADER + (h b).size ≤ i := Nat.le_of_not_lt hcase
      obtain ⟨c, hc, hun⟩ := ih ht hlo
      refine ⟨c, ⟨List.mem_cons_of_mem b hc.1, hc.2.1, hc.2.2⟩, ?_⟩
      rintro y ⟨hy, hyi, hiy⟩
      rcases List.mem_cons.1 hy with rfl | hy2
      · omega
      · exact hun y ⟨hy2, hyi, hiy⟩

/-! ## Lemmas about the doubly linked free list -/

theorem updH_same (f : Nat → Header) (k : Nat) (v : Header) : updH f k v k = v := by
  simp [updH]

theorem updH_other (f : Nat → Header) (k : Nat) (v : Header) {x : Nat} (hx : x ≠ k) :
    updH f k v x = f x := by
  simp [updH, hx]

theorem chainSeg_append {h : Nat → Header} {hd pv hdE pvE : Option Nat} {l1 l2 : List Nat} :
    chainSeg h hd pv (l1 ++ l2) hdE pvE ↔
      ∃ hdM pvM, chainSeg h hd pv l1 hdM pvM ∧ chainSeg h hdM pvM l2 hdE pvE := by
  induction l1 generalizing hd pv with
  | nil =>
    simp only [List.nil_append]
    constructor
    · intro hc
      exact ⟨hd, pv, ⟨rfl, rfl⟩, hc⟩
    · rintro ⟨hdM, pvM, ⟨rfl, rfl⟩, hc⟩
      exact hc
  | cons x l1 ih =>
    simp only [List.cons_append, chainSeg]
    constructor
    · rintro ⟨rfl, hpv, hc⟩
      obtain ⟨hdM, pvM, hc1, hc2⟩ := ih.1 hc
      exact ⟨hdM, pvM, ⟨rfl, hpv, hc1⟩, hc2⟩
    · rintro ⟨hdM, pvM, ⟨rfl, hpv, hc1⟩, hc2⟩
      exact ⟨rfl, hpv, ih.2 ⟨hdM, pvM, hc1, hc2⟩⟩

theorem chainSeg_congr {h h2 : Nat → Header} {hd pv hdE pvE : Option Nat} {l : List Nat}
    (hagree : ∀ x ∈ l, (h2 x).next = (h x).next ∧ (h2 x).prev = (h x).prev)
    (hc : chainSeg h hd pv l hdE pvE) : chainSeg h2 hd pv l hdE pvE := by
  induction l generalizing hd pv with
  | nil => exact hc
  | cons x l ih =>
    obtain ⟨rfl, hpv, hc⟩ := hc
    obtain ⟨hnx, hpx⟩ := hagree x (List.mem_cons_self x l)
    refine ⟨rfl, by rw [hpx]; exact hpv, ?_⟩
    rw [hnx]
    exact ih (fun y hy => hagree y (List.mem_cons_of_mem x hy)) hc

theorem chainSeg_exit {h : Nat → Header} {hd pv hdE pvE : Option Nat} {l : List Nat}
    (hc : chainSeg h hd pv l hdE pvE) :
    (l = [] ∧ hdE = hd ∧ pvE = pv) ∨
      ∃ l1 x, l = l1 ++ [x] ∧ pvE = some x ∧ hdE = (h x).next := by
  induction l generalizing hd pv with
  | nil => exact Or.inl ⟨rfl, hc.1, hc.2⟩
  | cons y l ih =>
    obtain ⟨rfl, hpv, hc⟩ := hc
    rcases ih hc with ⟨rfl, hhd, hpvE⟩ | ⟨l1, x, rfl, hpvE, hhdE⟩
    · exact Or.inr ⟨[], y, rfl, hpvE, hhd⟩
    · exact Or.inr ⟨y :: l1, x, rfl, hpvE, hhdE⟩

theorem chainOk_nil {h : Nat → Header} {hd : Option Nat} (hc : chainOk h hd []) :
    hd = none := by
  obtain ⟨pvE, hc⟩ := hc
  exact hc.1.symm

theorem chainOk_head {h : Nat → Header} {hd : Option Nat} {x : Nat} {l : List Nat}
    (hc : chainOk h hd (x :: l)) : hd = some x := by
  obtain ⟨pvE, hc⟩ := hc
  exact hc.1

theorem chainOk_head_prev {h : Nat → Header} {hd : Option Nat} {x : Nat} {l : List Nat}
    (hc : chainOk h hd (x :: l)) : (h x).prev = none := by
  obtain ⟨pvE, hc⟩ := hc
  exact hc.2.1

/-- Redirecting the `next` pointer of the last node of a chain segment. -/
theorem chainSeg_set_next {h : Nat → Header} {hd pv hdE pvE t : Option Nat}
    {l1 : List Nat} {p : Nat}
    (hc : chainSeg h hd pv (l1 ++ [p]) hdE pvE) (hp : p ∉ l1) :
    chainSeg (updH h p { h p with next := t }) hd pv (l1 ++ [p]) t (some p) := by
  obtain ⟨hdP, pvP, hc1, hc2⟩ := chainSeg_append.1 hc
  obtain ⟨hhdP, hprev, hc3⟩ := hc2
  refine chainSeg_append.2 ⟨hdP, pvP, ?_, ?_⟩
  · refine chainSeg_congr (fun y hy => ?_) hc1
    rw [updH_other h p _ (fun hyp => hp (hyp ▸ hy))]
    exact ⟨rfl, rfl⟩
  · refine ⟨hhdP, ?_, ?_⟩
    · rw [updH_same]
      exact hprev
    · rw [updH_same]
      exact ⟨rfl, rfl⟩

/-- Redirecting the `prev` pointer of the head node of a chain segment. -/
theorem chainSeg_set_prev {h : Nat → Header} {hd pv hdE pvE q : Option Nat}
    {l : List Nat} {n : Nat}
    (hc : chainSeg h hd pv (n :: l) hdE pvE) (hn : n ∉ l) :
    chainSeg (updH h n { h n with prev := q }) hd q (n :: l) hdE pvE := by
  obtain ⟨rfl, hprev, hc⟩ := hc
  refine ⟨rfl, by rw [updH_same], ?_⟩
  rw [updH_same]
  refine chainSeg_congr (fun y hy => ?_) hc
  rw [updH_other h n _ (fun hyn => hn (hyn ▸ hy))]
  exact ⟨rfl, rfl⟩


/-! ## Case characterisations of `insert_into_free_list` and `remove_from_free_list` -/

theorem insert_eq_none (s : AllocState) (b : Nat) (hfl : s.free_list = none) :
    insert_into_free_list s b =
      { s with
        hdrs := updH s.hdrs b { s.hdrs b with check_free := true, next := none, prev := none },
        free_list := some b } := by
  simp only [insert_into_free_list, hfl]

theorem insert_eq_some (s : AllocState) (b x : Nat) (hfl : s.free_list = some x) :
    insert_into_free_list s b =
      { s with
        hdrs := updH (updH s.hdrs b
            { s.hdrs b with check_free := true, next := some x, prev := none }) x
          { (updH s.hdrs b
              { s.hdrs b with check_free := true, next := some x, prev := none }) x with
            prev := some b },
        free_list := some b } := by
  simp only [insert_into_free_list, hfl]

theorem remove_eq_pn (s : AllocState) (b p n : Nat)
    (hp : (s.hdrs b).prev = some p) (hn : (s.hdrs b).next = some n) (hbp : b ≠ p) :
    remove_from_free_list s b =
      { s with
        hdrs := updH (updH s.hdrs p { s.hdrs p with next := some n }) n
          { (updH s.hdrs p { s.hdrs p with next := some n }) n with prev := some p } } := by
  simp only [remove_from_free_list, hp, hn, updH_other s.hdrs p _ hbp]

theorem remove_eq_pe (s : AllocState) (b p : Nat)
    (hp : (s.hdrs b).prev = some p) (hn : (s.hdrs b).next = none) (hbp : b ≠ p) :
    remove_from_free_list s b =
      { s with hdrs := updH s.hdrs p { s.hdrs p with next := none } } := by
  simp only [remove_from_free_list, hp, hn, updH_other s.hdrs p _ hbp]

theorem remove_eq_en (s : AllocState) (b n : Nat)
    (hp : (s.hdrs b).prev = none) (hn : (s.hdrs b).next = some n) :
    remove_from_free_list s b =
      { s with
        hdrs := updH s.hdrs n { s.hdrs n with prev := none },
        free_list := some n } := by
  simp only [remove_from_free_list, hp, hn]

theorem remove_eq_ee (s : AllocState) (b : Nat)
    (hp : (s.hdrs b).prev = none) (hn : (s.hdrs b).next = none) :
    remove_from_free_list s b = { s with free_list := none } := by
  simp only [remove_from_free_list, hp, hn]

/-- Effect of `insert_into_free_list` on a well-formed free list that does not
contain the inserted block: the block becomes the new head. -/
theorem insert_spec {s : AllocState} {b : Nat} {fl : List Nat}
    (hch : chainOk s.hdrs s.free_list fl) (hnd : fl.Nodup) (hb : b ∉ fl) :
    chainOk (insert_into_free_list s b).hdrs (insert_into_free_list s b).free_list (b :: fl) ∧
      (insert_into_free_list s b).used = s.used ∧
      (insert_into_free_list s b).mem = s.mem ∧
      (insert_into_free_list s b).free_list = some b ∧
      (insert_into_free_list s b).hdrs b =
        { s.hdrs b with check_free := true, next := s.free_list, prev := none } ∧
      (∀ x, x ≠ b → ((insert_into_free_list s b).hdrs x).size = (s.hdrs x).size ∧
        ((insert_into_free_list s b).hdrs x).check_free = (s.hdrs x).check_free) := by
  obtain ⟨pvE, hc⟩ := hch
  cases fl with
  | nil =>
    have hfl : s.free_list = none := hc.1.symm
    rw [insert_eq_none s b hfl, hfl]
    dsimp only
    refine ⟨⟨some b, ?_⟩, rfl, rfl, rfl, updH_same _ _ _, fun x hx => ?_⟩
    · exact ⟨rfl, by rw [updH_same], by rw [updH_same]; exact ⟨rfl, rfl⟩⟩
    · rw [updH_other _ _ _ hx]
      exact ⟨rfl, rfl⟩
  | cons y fl2 =>
    have hfl : s.free_list = some y := hc.1
    have hby : b ≠ y := fun he => hb (he ▸ List.mem_cons_self y fl2)
    have hyfl2 : y ∉ fl2 := (List.nodup_cons.1 hnd).1
    rw [insert_eq_some s b y hfl, hfl]
    dsimp only
    rw [hfl] at hc
    refine ⟨⟨pvE, ?_⟩, rfl, rfl, rfl, ?_, fun x hx => ?_⟩
    · refine ⟨rfl, ?_, ?_⟩
      · rw [updH_other _ _ _ hby, updH_same]
      · rw [updH_other _ _ _ hby, updH_same]
        show chainSeg _ (some y) (some b) (y :: fl2) none pvE
        have hset := chainSeg_set_prev (q := some b) hc hyfl2
        refine chainSeg_congr (fun z hz => ?_) hset
        rcases List.mem_cons.1 hz with rfl | hz2
        · rw [updH_same, updH_same, updH_other _ _ _ hby.symm]
          exact ⟨rfl, rfl⟩
        · have hzy : z ≠ y := fun he => hyfl2 (he ▸ hz2)
          have hzb : z ≠ b := fun he => hb (he ▸ List.mem_cons_of_mem y hz2)
          rw [updH_other _ _ _ hzy, updH_other _ _ _ hzy, updH_other _ _ _ hzb]
          exact ⟨rfl, rfl⟩
    · rw [updH_other _ _ _ hby, updH_same]
    · by_cases hxy : x = y
      · subst hxy
        rw [updH_same, updH_other _ _ _ hby.symm]
        exact ⟨rfl, rfl⟩
      · rw [updH_other _ _ _ hxy, updH_other _ _ _ hx]
        exact ⟨rfl, rfl⟩

/-- Effect of `remove_from_free_list` on a well-formed free list `xs ++ b :: ys`:
the chain becomes `xs ++ ys`; sizes and free flags are untouched, `b`'s own
header is untouched, and only the successor's `prev` link changes. -/
theorem remove_spec {s : AllocState} {b : Nat} {xs ys : List Nat}
    (hch : chainOk s.hdrs s.free_list (xs ++ b :: ys))
    (hnd : (xs ++ b :: ys).Nodup) :
    chainOk (remove_from_free_list s b).hdrs (remove_from_free_list s b).free_list (xs ++ ys) ∧
      (remove_from_free_list s b).used = s.used ∧
      (remove_from_free_list s b).mem = s.mem ∧
      (∀ x, ((remove_from_free_list s b).hdrs x).size = (s.hdrs x).size ∧
        ((remove_from_free_list s b).hdrs x).check_free = (s.hdrs x).check_free) ∧
      (remove_from_free_list s b).hdrs b = s.hdrs b ∧
      (∀ x, ys.head? ≠ some x →
        ((remove_from_free_list s b).hdrs x).prev = (s.hdrs x).prev) := by
  obtain ⟨pvE, hc⟩ := hch
  obtain ⟨hdM, pvM, hc1, hc2⟩ := chainSeg_append.1 hc
  obtain ⟨hhdM, hbprev, hc3⟩ := hc2
  rw [List.nodup_append] at hnd
  obtain ⟨hndxs, hndbys, hdisj⟩ := hnd
  have hbxs : b ∉ xs := fun hbx => hdisj hbx (List.mem_cons_self b ys)
  have hbys : b ∉ ys := (List.nodup_cons.1 hndbys).1
  have hndys : ys.Nodup := (List.nodup_cons.1 hndbys).2
  rcases chainSeg_exit hc1 with ⟨hxs, hhd, hpv⟩ | ⟨l1, p, hxs, hpv, hhdE⟩
  · subst hxs
    subst hpv
    cases ys with
    | nil =>
      obtain ⟨hnext, hpvE⟩ := hc3
      rw [remove_eq_ee s b hbprev hnext.symm]
      dsimp only
      exact ⟨⟨none, ⟨rfl, rfl⟩⟩, rfl, rfl, fun x => ⟨rfl, rfl⟩, rfl, fun x hx => rfl⟩
    | cons n ys2 =>
      obtain ⟨hnext, hnprev, hc4⟩ := hc3
      have hnb : n ≠ b := fun he => hbys (he ▸ List.mem_cons_self n ys2)
      have hnys2 : n ∉ ys2 := (List.nodup_cons.1 hndys).1
      rw [remove_eq_en s b n hbprev hnext]
      dsimp only
      refine ⟨⟨pvE, ?_⟩, rfl, rfl, fun x => ?_, ?_, fun x hx => ?_⟩
      · show chainSeg _ (some n) none ([] ++ n :: ys2) none pvE
        rw [List.nil_append]
        have hcn : chainSeg s.hdrs (some n) (some b) (n :: ys2) none pvE := ⟨rfl, hnprev, hc4⟩
        exact chainSeg_set_prev (q := none) hcn hnys2
      · by_cases hxn : x = n
        · subst hxn
          rw [updH_same]
          exact ⟨rfl, rfl⟩
        · rw [updH_other _ _ _ hxn]
          exact ⟨rfl, rfl⟩
      · rw [updH_other _ _ _ hnb.symm]
      · have hxn : x ≠ n := fun he => hx (by rw [he]; rfl)
        rw [updH_other _ _ _ hxn]
  · subst hxs
    subst hpv
    rw [hhdE] at hhdM
    have hpxs : p ∈ l1 ++ [p] := by simp
    have hbp : b ≠ p := fun he => hbxs (he ▸ hpxs)
    have hpl1 : p ∉ l1 := by
      rw [List.nodup_append] at hndxs
      exact fun hp2 => hndxs.2.2 hp2 (by simp)
    rw [hhdE] at hc1
    cases ys with
    | nil =>
      obtain ⟨hnext, hpvE⟩ := hc3
      rw [remove_eq_pe s b p hbprev hnext.symm hbp]
      dsimp only
      refine ⟨⟨some p, ?_⟩, rfl, rfl, fun x => ?_, ?_, fun x hx => ?_⟩
      · show chainSeg _ s.free_list none ((l1 ++ [p]) ++ []) none (some p)
        rw [List.append_nil]
        exact chainSeg_set_next (t := none) hc1 hpl1
      · by_cases hxp : x = p
        · subst hxp
          rw [updH_same]
          exact ⟨rfl, rfl⟩
        · rw [updH_other _ _ _ hxp]
          exact ⟨rfl, rfl⟩
      · rw [updH_other _ _ _ hbp]
      · by_cases hxp : x = p
        · subst hxp
          rw [updH_same]
        · rw [updH_other _ _ _ hxp]
    | cons n ys2 =>
      obtain ⟨hnext, hnprev, hc4⟩ := hc3
      have hnb : n ≠ b := fun he => hbys (he ▸ List.mem_cons_self n ys2)
      have hnys2 : n ∉ ys2 := (List.nodup_cons.1 hndys).1
      have hnxs : n ∉ l1 ++ [p] :=
        fun hn2 => hdisj hn2 (List.mem_cons_of_mem b (List.mem_cons_self n ys2))
      have hnp : n ≠ p := fun he => hnxs (by rw [he]; exact hpxs)
      rw [remove_eq_pn s b p n hbprev hnext hbp]
      dsimp only
      refine ⟨⟨pvE, ?_⟩, rfl, rfl, fun x => ?_, ?_, fun x hx => ?_⟩
      · refine chainSeg_append.2 ⟨some n, some p, ?_, ?_⟩
        · have hseg := chainSeg_set_next (t := some n) hc1 hpl1
          refine chainSeg_congr (fun z hz => ?_) hseg
          have hzn : z ≠ n := fun he => hnxs (he ▸ hz)
          rw [updH_other _ _ _ hzn]
          exact ⟨rfl, rfl⟩
        · have hcn : chainSeg s.hdrs (some n) (some b) (n :: ys2) none pvE := ⟨rfl, hnprev, hc4⟩
          have hset := chainSeg_set_prev (q := some p) hcn hnys2
          refine chainSeg_congr (fun z hz => ?_) hset
          rcases List.mem_cons.1 hz with rfl | hz2
          · rw [updH_same, updH_same, updH_other _ _ _ hnp]
            exact ⟨rfl, rfl⟩
          · have hzn : z ≠ n := fun he => hnys2 (he ▸ hz2)
            have hzp : z ≠ p :=
              fun he => hdisj (by rw [he]; exact hpxs) (List.mem_cons_of_mem b (List.mem_cons_of_mem n hz2))
            rw [updH_other _ _ _ hzn, updH_other _ _ _ hzp, updH_other _ _ _ hzn]
            exact ⟨rfl, rfl⟩
      · by_cases hxn : x = n
        · subst hxn
          rw [updH_same, updH_other _ _ _ hnp]
          exact ⟨rfl, rfl⟩
        · rw [updH_other _ _ _ hxn]
          by_cases hxp : x = p
          · subst hxp
            rw [updH_same]
            exact ⟨rfl, rfl⟩
          · rw [updH_other _ _ _ hxp]
            exact ⟨rfl, rfl⟩
      · rw [updH_other _ _ _ hnb.symm, updH_other _ _ _ hbp]
      · have hxn : x ≠ n := fun he => hx (by rw [he]; rfl)
        rw [updH_other _ _ _ hxn]
        by_cases hxp : x = p
        · subst hxp
          rw [updH_same]
        · rw [updH_other _ _ _ hxp]

/-! ## First-fit search -/

theorem findFit_seg {s : AllocState} {n : Nat} {hd pv pvE : Option Nat} {l : List Nat}
    (hc : chainSeg s.hdrs hd pv l none pvE) {fuel : Nat} (hfuel : l.length ≤ fuel) :
    findFit s n fuel hd = l.find? (fun o => decide (n ≤ (s.hdrs o).size)) := by
  induction l generalizing hd pv fuel with
  | nil =>
    obtain ⟨h1, -⟩ := hc
    subst h1
    cases fuel <;> rfl
  | cons c l ih =>
    obtain ⟨rfl, hprev, hc⟩ := hc
    cases fuel with
    | zero => simp at hfuel
    | succ fuel =>
      have hfuel2 : l.length ≤ fuel := by
        simp only [List.length_cons] at hfuel
        omega
      by_cases hfit : n ≤ (s.hdrs c).size
      · rw [List.find?_cons_of_pos _ (by simpa using hfit)]
        simp [findFit, hfit]
      · rw [List.find?_cons_of_neg _ (by simpa using hfit)]
        have hstep : findFit s n (fuel + 1) (some c) = findFit s n fuel (s.hdrs c).next := by
          simp [findFit, hfit]
        rw [hstep]
        exact ih hc hfuel2

theorem findFit_chain {s : AllocState} {n : Nat} {fl : List Nat}
    (hch : chainOk s.hdrs s.free_list fl) {fuel : Nat} (hfuel : fl.length ≤ fuel) :
    findFit s n fuel s.free_list = fl.find? (fun o => decide (n ≤ (s.hdrs o).size)) := by
  obtain ⟨pvE, hc⟩ := hch
  exact findFit_seg hc hfuel

theorem find?_first {f : Nat → Bool} {xs ys : List Nat} {c : Nat}
    (hxs : ∀ x ∈ xs, f x = false) (hc : f c = true) :
    (xs ++ c :: ys).find? f = some c := by
  induction xs with
  | nil => simpa using List.find?_cons_of_pos ys hc
  | cons a xs ih =>
    rw [List.cons_append, List.find?_cons_of_neg _ (by simp [hxs a (List.mem_cons_self a xs)])]
    exact ih (fun x hx => hxs x (List.mem_cons_of_mem a hx))

theorem find?_eq_some_decomp {f : Nat → Bool} {l : List Nat} {c : Nat}
    (hf : l.find? f = some c) :
    ∃ xs ys, l = xs ++ c :: ys ∧ (∀ x ∈ xs, f x = false) ∧ f c = true := by
  induction l with
  | nil => simp at hf
  | cons a l ih =>
    by_cases ha : f a = true
    · rw [List.find?_cons_of_pos _ ha] at hf
      obtain rfl : a = c := by simpa using hf
      exact ⟨[], l, rfl, by simp, ha⟩
    · rw [List.find?_cons_of_neg _ ha] at hf
      obtain ⟨xs, ys, rfl, hxs, hc2⟩ := ih hf
      refine ⟨a :: xs, ys, rfl, ?_, hc2⟩
      intro x hx
      rcases List.mem_cons.1 hx with rfl | hx2
      · simpa using ha
      · exact hxs x hx2

/-- Under the invariant the free list is shorter than the fuel `used + 1` that
`mymalloc` passes to the scan, so the fuel never runs out. -/
theorem fl_length_le_used {s : AllocState} {tl fl : List Nat} (hInv : AllocInv s tl fl) :
    fl.length ≤ s.used := by
  have h1 : fl.length ≤ tl.length :=
    (hInv.fl_nodup.subperm (fun x hx => hInv.fl_sub x hx)).length_le
  have h2 := tilesOk_length hInv.tiles
  have h3 : tl.length ≤ HEADER * tl.length := Nat.le_mul_of_pos_left _ HEADER_pos
  omega

/-! ## `mymalloc` -/

theorem mymalloc_eq_fit {s : AllocState} {n c : Nat}
    (hf : findFit s n (s.used + 1) s.free_list = some c) :
    mymalloc s n = (some (c + HEADER),
      { remove_from_free_list s c with
        hdrs := updH (remove_from_free_list s c).hdrs c
          { (remove_from_free_list s c).hdrs c with check_free := false } }) := by
  simp only [mymalloc, hf]

theorem mymalloc_eq_bump {s : AllocState} {n : Nat}
    (hf : findFit s n (s.used + 1) s.free_list = none)
    (hcap : ¬ s.used + (HEADER + n) > CAP) :
    mymalloc s n = (some (s.used + HEADER),
      { s with
        hdrs := updH s.hdrs s.used { s.hdrs s.used with size := n, check_free := false },
        used := s.used + (HEADER + n) }) := by
  simp only [mymalloc, hf, if_neg hcap]

theorem mymalloc_eq_fail {s : AllocState} {n : Nat}
    (hf : findFit s n (s.used + 1) s.free_list = none)
    (hcap : s.used + (HEADER + n) > CAP) :
    mymalloc s n = (none, s) := by
  simp only [mymalloc, hf, if_pos hcap]

/-- First-fit success: when `fl = xs ++ c :: ys`, no block of `xs` is big enough
and `c` is, `mymalloc` hands out `c`'s payload, clears its flag, removes it from
the free list, and changes nothing else; the invariant is preserved. -/
theorem mymalloc_fit {s : AllocState} {tl fl xs ys : List Nat} {c n : Nat}
    (hInv : AllocInv s tl fl) (hfl : fl = xs ++ c :: ys)
    (hxs : ∀ o ∈ xs, (s.hdrs o).size < n) (hc : n ≤ (s.hdrs c).size) :
    (mymalloc s n).1 = some (c + HEADER) ∧
      (mymalloc s n).2.used = s.used ∧
      (mymalloc s n).2.mem = s.mem ∧
      ((mymalloc s n).2.hdrs c).size = (s.hdrs c).size ∧
      ((mymalloc s n).2.hdrs c).check_free = false ∧
      (∀ x, x ≠ c → ((mymalloc s n).2.hdrs x).size = (s.hdrs x).size ∧
        ((mymalloc s n).2.hdrs x).check_free = (s.hdrs x).check_free) ∧
      AllocInv (mymalloc s n).2 tl (xs ++ ys) := by
  subst hfl
  have hnd := hInv.fl_nodup
  rw [List.nodup_append] at hnd
  obtain ⟨hndxs, hndcys, hdisjxs⟩ := hnd
  have hcxs : c ∉ xs := fun h2 => hdisjxs h2 (List.mem_cons_self c ys)
  have hcys : c ∉ ys := (List.nodup_cons.1 hndcys).1
  have hcmem : c ∈ xs ++ c :: ys := by simp
  have hfind : findFit s n (s.used + 1) s.free_list = some c := by
    rw [findFit_chain hInv.chain (le_trans (fl_length_le_used hInv) (Nat.le_succ _))]
    refine find?_first (fun x hx => ?_) (by simp [hc])
    simp only [decide_eq_false_iff_not, Nat.not_le]
    exact hxs x hx
  obtain ⟨rch, rused, rmem, rsz, rb, rprev⟩ := remove_spec hInv.chain hInv.fl_nodup
  rw [mymalloc_eq_fit hfind]
  dsimp only
  have husz : ∀ x, (updH (remove_from_free_list s c).hdrs c
      { (remove_from_free_list s c).hdrs c with check_free := false } x).size = (s.hdrs x).size := by
    intro x
    by_cases hxc : x = c
    · subst hxc
      rw [updH_same]
      exact (rsz x).1
    · rw [updH_other _ _ _ hxc]
      exact (rsz x).1
  refine ⟨rfl, rused, rmem, ?_, ?_, ?_, ?_⟩
  · rw [updH_same, rb]
  · rw [updH_same]
  · intro x hxc
    rw [updH_other _ _ _ hxc]
    exact rsz x
  · refine ⟨?_, ?_, ?_, ?_, ?_⟩
    · rw [rused]
      exact tilesOk_congr (fun x hx => husz x) hInv.tiles
    · obtain ⟨pv2, rseg⟩ := rch
      dsimp only
      refine ⟨pv2, chainSeg_congr (fun z hz => ?_) rseg⟩
      have hzc : z ≠ c := by
        intro he
        subst he
        rcases List.mem_append.1 hz with h2 | h2
        · exact hcxs h2
        · exact hcys h2
      rw [updH_other _ _ _ hzc]
      exact ⟨rfl, rfl⟩
    · exact hInv.fl_nodup.sublist ((List.sublist_cons_self c ys).append_left xs)
    · intro x hx
      refine hInv.fl_sub x ?_
      rcases List.mem_append.1 hx with h2 | h2
      · exact List.mem_append.2 (Or.inl h2)
      · exact List.mem_append.2 (Or.inr (List.mem_cons_of_mem c h2))
    · intro b2 hb2
      dsimp only
      by_cases hb2c : b2 = c
      · subst hb2c
        rw [updH_same]
        simp only [Bool.false_eq_true, false_iff]
        intro hmem
        rcases List.mem_append.1 hmem with h2 | h2
        · exact hcxs h2
        · exact hcys h2
      · rw [updH_other _ _ _ hb2c]
        rw [(rsz b2).2]
        rw [hInv.flags b2 hb2]
        constructor
        · intro hmem
          rcases List.mem_append.1 hmem with h2 | h2
          · exact List.mem_append.2 (Or.inl h2)
          · rcases List.mem_cons.1 h2 with h3 | h3
            · exact absurd h3 hb2c
            · exact List.mem_append.2 (Or.inr h3)
        · intro hmem
          rcases List.mem_append.1 hmem with h2 | h2
          · exact List.mem_append.2 (Or.inl h2)
          · exact List.mem_append.2 (Or.inr (List.mem_cons_of_mem c h2))

/-- When no free block fits and the request would overflow the 128 MiB pool,
`mymalloc` fails and the state is returned entirely unchanged. -/
theorem mymalloc_nofit_fail {s : AllocState} {tl fl : List Nat} {n : Nat}
    (hInv : AllocInv s tl fl) (hno : ∀ o ∈ fl, (s.hdrs o).size < n)
    (hcap : s.used + (HEADER + n) > CAP) :
    mymalloc s n = (none, s) := by
  have hfind : findFit s n (s.used + 1) s.free_list = none := by
    rw [findFit_chain hInv.chain (le_trans (fl_length_le_used hInv) (Nat.le_succ _))]
    refine List.find?_eq_none.2 (fun x hx => ?_)
    simp only [decide_eq_true_eq, Nat.not_le]
    exact hno x hx
  exact mymalloc_eq_fail hfind hcap

/-- When no free block fits and the pool has room, `mymalloc` bump-allocates a
fresh block at offset `used`; the invariant is preserved with the new block
appended to the tiling. -/
theorem mymalloc_nofit_bump {s : AllocState} {tl fl : List Nat} {n : Nat}
    (hInv : AllocInv s tl fl) (hno : ∀ o ∈ fl, (s.hdrs o).size < n)
    (hcap : ¬ s.used + (HEADER + n) > CAP) :
    (mymalloc s n).1 = some (s.used + HEADER) ∧
      (mymalloc s n).2.used = s.used + (HEADER + n) ∧
      (mymalloc s n).2.mem = s.mem ∧
      (mymalloc s n).2.free_list = s.free_list ∧
      ((mymalloc s n).2.hdrs s.used).size = n ∧
      ((mymalloc s n).2.hdrs s.used).check_free = false ∧
      (∀ x, x ≠ s.used → (mymalloc s n).2.hdrs x = s.hdrs x) ∧
      AllocInv (mymalloc s n).2 (tl ++ [s.used]) fl := by
  have hfind : findFit s n (s.used + 1) s.free_list = none := by
    rw [findFit_chain hInv.chain (le_trans (fl_length_le_used hInv) (Nat.le_succ _))]
    refine List.find?_eq_none.2 (fun x hx => ?_)
    simp only [decide_eq_true_eq, Nat.not_le]
    exact hno x hx
  have hlt : ∀ x ∈ tl, x ≠ s.used := by
    intro x hx he
    have := tilesOk_mem_ub hInv.tiles hx
    have hH := HEADER_pos
    omega
  have hflne : ∀ x ∈ fl, x ≠ s.used := fun x hx => hlt x (hInv.fl_sub x hx)
  rw [mymalloc_eq_bump hfind hcap]
  dsimp only
  refine ⟨rfl, rfl, rfl, rfl, ?_, ?_, fun x hx => updH_other _ _ _ hx, ?_, ?_,
    hInv.fl_nodup, ?_, ?_⟩
  · rw [updH_same]
  · rw [updH_same]
  · dsimp only
    show tilesOk _ (s.used + (HEADER + n)) 0 (tl ++ [s.used])
    rw [← Nat.add_assoc]
    refine tilesOk_bump hInv.tiles (fun x hx => ?_) (by rw [updH_same])
    rw [updH_other _ _ _ (hlt x hx)]
  · dsimp only
    obtain ⟨pv2, hseg⟩ := hInv.chain
    refine ⟨pv2, chainSeg_congr (fun z hz => ?_) hseg⟩
    rw [updH_other _ _ _ (hflne z hz)]
    exact ⟨rfl, rfl⟩
  · exact fun x hx => List.mem_append.2 (Or.inl (hInv.fl_sub x hx))
  · intro b2 hb2
    dsimp only
    rcases List.mem_append.1 hb2 with h2 | h2
    · rw [updH_other _ _ _ (hlt b2 h2)]
      exact hInv.flags b2 h2
    · have hb2u : b2 = s.used := by simpa using h2
      subst hb2u
      rw [updH_same]
      simp only [Bool.false_eq_true, false_iff]
      exact fun hmem => hflne _ hmem rfl

/-! ## `merge_blocks` and `myfree` -/

theorem merge_eq_no {s : AllocState} {b : Nat}
    (hcond : ¬(b + HEADER + (s.hdrs b).size < s.used ∧
      (s.hdrs (b + HEADER + (s.hdrs b).size)).check_free = true))
    (hprev : (s.hdrs b).prev = none) :
    merge_blocks s b = s := by
  unfold merge_blocks
  have h1 : merge_fwd s b = s := by
    simp only [merge_fwd, if_neg hcond]
  rw [h1]
  simp only [merge_bwd, hprev]

theorem merge_eq_fwd {s : AllocState} {b : Nat}
    (hcond : b + HEADER + (s.hdrs b).size < s.used ∧
      (s.hdrs (b + HEADER + (s.hdrs b).size)).check_free = true)
    (hprev : ((remove_from_free_list s (b + HEADER + (s.hdrs b).size)).hdrs b).prev = none) :
    merge_blocks s b =
      { remove_from_free_list s (b + HEADER + (s.hdrs b).size) with
        hdrs := updH (remove_from_free_list s (b + HEADER + (s.hdrs b).size)).hdrs b
          { (remove_from_free_list s (b + HEADER + (s.hdrs b).size)).hdrs b with
            size := ((remove_from_free_list s (b + HEADER + (s.hdrs b).size)).hdrs b).size +
              (HEADER + ((remove_from_free_list s (b + HEADER + (s.hdrs b).size)).hdrs
                (b + HEADER + (s.hdrs b).size)).size) } } := by
  unfold merge_blocks
  have h1 : merge_fwd s b =
      { remove_from_free_list s (b + HEADER + (s.hdrs b).size) with
        hdrs := updH (remove_from_free_list s (b + HEADER + (s.hdrs b).size)).hdrs b
          { (remove_from_free_list s (b + HEADER + (s.hdrs b).size)).hdrs b with
            size := ((remove_from_free_list s (b + HEADER + (s.hdrs b).size)).hdrs b).size +
              (HEADER + ((remove_from_free_list s (b + HEADER + (s.hdrs b).size)).hdrs
                (b + HEADER + (s.hdrs b).size)).size) } } := by
    simp only [merge_fwd, if_pos hcond]
  rw [h1]
  have h2 : (updH (remove_from_free_list s (b + HEADER + (s.hdrs b).size)).hdrs b
      { (remove_from_free_list s (b + HEADER + (s.hdrs b).size)).hdrs b with
        size := ((remove_from_free_list s (b + HEADER + (s.hdrs b).size)).hdrs b).size +
          (HEADER + ((remove_from_free_list s (b + HEADER + (s.hdrs b).size)).hdrs
            (b + HEADER + (s.hdrs b).size)).size) } b).prev = none := by
    rw [updH_same]
    exact hprev
  simp only [merge_bwd, h2]

theorem myfree_some (s : AllocState) (b : Nat) :
    myfree s (some (b + HEADER)) = merge_blocks (insert_into_free_list s b) b := by
  simp [myfree, Nat.add_sub_cancel]

/-- Inside `myfree` the freed block heads the free list, so its `prev` link is
null and the backward branch of `merge_blocks` never fires; when the forward
neighbour is absent or allocated the merge is a no-op. -/
theorem merge_head_no {s : AllocState} {tl fl : List Nat} {b : Nat}
    (hInv : AllocInv s tl (b :: fl))
    (hcond : ¬(b + HEADER + (s.hdrs b).size < s.used ∧
      (s.hdrs (b + HEADER + (s.hdrs b).size)).check_free = true)) :
    merge_blocks s b = s :=
  merge_eq_no hcond (chainOk_head_prev hInv.chain)

theorem merge_head_yes {s : AllocState} {tl fl : List Nat} {b : Nat}
    (hInv : AllocInv s tl (b :: fl))
    (hlt : b + HEADER + (s.hdrs b).size < s.used)
    (hfree : (s.hdrs (b + HEADER + (s.hdrs b).size)).check_free = true) :
    ((merge_blocks s b).hdrs b).size =
        (s.hdrs b).size + (HEADER + (s.hdrs (b + HEADER + (s.hdrs b).size)).size) ∧
      ((merge_blocks s b).hdrs b).check_free = (s.hdrs b).check_free ∧
      (merge_blocks s b).used = s.used ∧
      (merge_blocks s b).mem = s.mem ∧
      (∀ x, x ≠ b → ((merge_blocks s b).hdrs x).size = (s.hdrs x).size ∧
        ((merge_blocks s b).hdrs x).check_free = (s.hdrs x).check_free) ∧
      ∃ tl2, AllocInv (merge_blocks s b) tl2
          (b :: fl.erase (b + HEADER + (s.hdrs b).size)) ∧
        (∀ x, x ∈ tl2 ↔ x ∈ tl ∧ x ≠ b + HEADER + (s.hdrs b).size) := by
  have hH := HEADER_pos
  have hbtl : b ∈ tl := hInv.fl_sub b (List.mem_cons_self b fl)
  obtain ⟨l1, l2, htl, hl1lt⟩ := tilesOk_succ hInv.tiles hbtl hlt
  have hnbtl : (b + HEADER + (s.hdrs b).size) ∈ tl := by rw [htl]; simp
  have hnbne : b + HEADER + (s.hdrs b).size ≠ b := by omega
  have hnbfl : (b + HEADER + (s.hdrs b).size) ∈ fl := by
    have hm := (hInv.flags _ hnbtl).1 hfree
    rcases List.mem_cons.1 hm with he | hm2
    · exact absurd he hnbne
    · exact hm2
  obtain ⟨xs2, ys2, hfl⟩ := List.append_of_mem hnbfl
  have hndbfl := hInv.fl_nodup
  have hbfl : b ∉ fl := (List.nodup_cons.1 hndbfl).1
  have hndfl : fl.Nodup := (List.nodup_cons.1 hndbfl).2
  have hndfl2 := hndfl
  rw [hfl, List.nodup_append] at hndfl2
  obtain ⟨hndxs2, hndnbys2, hdisj2⟩ := hndfl2
  have hnbxs2 : (b + HEADER + (s.hdrs b).size) ∉ xs2 :=
    fun h2 => hdisj2 h2 (List.mem_cons_self _ ys2)
  have hnbys2 : (b + HEADER + (s.hdrs b).size) ∉ ys2 := (List.nodup_cons.1 hndnbys2).1
  have hsubfl : ∀ z ∈ xs2 ++ ys2, z ∈ fl := by
    intro z hz
    rw [hfl]
    rcases List.mem_append.1 hz with h2 | h2
    · exact List.mem_append.2 (Or.inl h2)
    · exact List.mem_append.2 (Or.inr (List.mem_cons_of_mem _ h2))
  have hchain2 : chainOk s.hdrs s.free_list
      ((b :: xs2) ++ (b + HEADER + (s.hdrs b).size) :: ys2) := by
    rw [List.cons_append, ← hfl]
    exact hInv.chain
  have hnd2 : ((b :: xs2) ++ (b + HEADER + (s.hdrs b).size) :: ys2).Nodup := by
    rw [List.cons_append, ← hfl]
    exact hndbfl
  obtain ⟨rch, rused, rmem, rsz, rb, rprev⟩ := remove_spec hchain2 hnd2
  have hprev0 : (s.hdrs b).prev = none := chainOk_head_prev hInv.chain
  have hprevb :
      ((remove_from_free_list s (b + HEADER + (s.hdrs b).size)).hdrs b).prev = none := by
    rw [rprev b ?hne, hprev0]
    case hne =>
      cases ys2 with
      | nil => simp
      | cons y ys3 =>
        simp only [List.head?_cons, ne_eq, Option.some.injEq]
        intro he
        exact hbfl (he ▸ hsubfl y (List.mem_append.2 (Or.inr (List.mem_cons_self y ys3))))
  rw [merge_eq_fwd ⟨hlt, hfree⟩ hprevb]
  dsimp only
  have husz : ∀ x, x ≠ b →
      ((updH (remove_from_free_list s (b + HEADER + (s.hdrs b).size)).hdrs b
        { (remove_from_free_list s (b + HEADER + (s.hdrs b).size)).hdrs b with
          size := ((remove_from_free_list s (b + HEADER + (s.hdrs b).size)).hdrs b).size +
            (HEADER + ((remove_from_free_list s (b + HEADER + (s.hdrs b).size)).hdrs
              (b + HEADER + (s.hdrs b).size)).size) }) x).size = (s.hdrs x).size ∧
      ((updH (remove_from_free_list s (b + HEADER + (s.hdrs b).size)).hdrs b
        { (remove_from_free_list s (b + HEADER + (s.hdrs b).size)).hdrs b with
          size := ((remove_from_free_list s (b + HEADER + (s.hdrs b).size)).hdrs b).size +
            (HEADER + ((remove_from_free_list s (b + HEADER + (s.hdrs b).size)).hdrs
              (b + HEADER + (s.hdrs b).size)).size) }) x).check_free = (s.hdrs x).check_free := by
    intro x hx
    rw [updH_other _ _ _ hx]
    exact rsz x
  have hsizeb :
      ((updH (remove_from_free_list s (b + HEADER + (s.hdrs b).size)).hdrs b
        { (remove_from_free_list s (b + HEADER + (s.hdrs b).size)).hdrs b with
          size := ((remove_from_free_list s (b + HEADER + (s.hdrs b).size)).hdrs b).size +
            (HEADER + ((remove_from_free_list s (b + HEADER + (s.hdrs b).size)).hdrs
              (b + HEADER + (s.hdrs b).size)).size) }) b).size =
      (s.hdrs b).size + (HEADER + (s.hdrs (b + HEADER + (s.hdrs b).size)).size) := by
    rw [updH_same]
    show ((remove_from_free_list s _).hdrs b).size + _ = _
    rw [(rsz b).1, rb]
  refine ⟨hsizeb, ?_, rused, rmem, husz, ?_⟩
  · rw [updH_same]
    show ((remove_from_free_list s _).hdrs b).check_free = _
    exact (rsz b).2
  · -- the invariant with the absorbed block dropped from the tiling
    have hndtl := tilesOk_nodup hInv.tiles
    rw [htl] at hndtl
    rw [List.nodup_append] at hndtl
    obtain ⟨hndl1, hndmid, hdisjtl⟩ := hndtl
    have hnbl1 : (b + HEADER + (s.hdrs b).size) ∉ l1 :=
      fun h2 => hdisjtl h2 (List.mem_cons_of_mem b (List.mem_cons_self _ l2))
    have hbl1 : b ∉ l1 := fun h2 => hdisjtl h2 (List.mem_cons_self b _)
    have hbnbl2 := hndmid
    rw [List.nodup_cons] at hbnbl2
    obtain ⟨hbmid, hndnb2⟩ := hbnbl2
    rw [List.nodup_cons] at hndnb2
    obtain ⟨hnbl2, hndl2⟩ := hndnb2
    have hiff : ∀ x, x ∈ l1 ++ b :: l2 ↔ x ∈ tl ∧ x ≠ b + HEADER + (s.hdrs b).size := by
      intro x
      rw [htl]
      simp only [List.mem_append, List.mem_cons]
      constructor
      · rintro (h2 | h2 | h2)
        · exact ⟨Or.inl h2, fun he => hnbl1 (he ▸ h2)⟩
        · exact ⟨Or.inr (Or.inl h2), fun he => hnbne (he ▸ h2) ⟩
        · exact ⟨Or.inr (Or.inr (Or.inr h2)), fun he => hnbl2 (he ▸ h2)⟩
      · rintro ⟨h2 | h2 | h2 | h2, hne⟩
        · exact Or.inl h2
        · exact Or.inr (Or.inl h2)
        · exact absurd h2 hne
        · exact Or.inr (Or.inr h2)
    have herase : fl.erase (b + HEADER + (s.hdrs b).size) = xs2 ++ ys2 := by
      rw [hfl, List.erase_append_right _ hnbxs2, List.erase_cons_head]
    refine ⟨l1 ++ b :: l2, ⟨?_, ?_, ?_, ?_, ?_⟩, hiff⟩
    · -- tiles
      dsimp only
      rw [rused]
      refine tilesOk_merge (htl ▸ hInv.tiles) rfl hsizeb ?_
      intro x hx hxb
      exact (husz x hxb).1
    · -- chain
      dsimp only
      rw [herase]
      obtain ⟨pv2, rseg⟩ := rch
      rw [List.cons_append] at rseg
      refine ⟨pv2, chainSeg_congr (fun z hz => ?_) rseg⟩
      by_cases hzb : z = b
      · subst hzb
        rw [updH_same]
        exact ⟨rfl, rfl⟩
      · rw [updH_other _ _ _ hzb]
        exact ⟨rfl, rfl⟩
    · -- nodup
      rw [herase]
      refine List.nodup_cons.2 ⟨fun hm => hbfl (hsubfl b hm), ?_⟩
      have : (xs2 ++ ys2).Sublist (xs2 ++ (b + HEADER + (s.hdrs b).size) :: ys2) :=
        (List.sublist_cons_self _ ys2).append_left xs2
      exact (hfl ▸ hndfl).sublist this
    · -- fl_sub
      rw [herase]
      intro z hz
      rcases List.mem_cons.1 hz with rfl | hz2
      · exact (hiff z).2 ⟨hbtl, Ne.symm hnbne⟩
      · have hzfl : z ∈ fl := hsubfl z hz2
        have hztl : z ∈ tl := hInv.fl_sub z (List.mem_cons_of_mem b hzfl)
        have hzne : z ≠ b + HEADER + (s.hdrs b).size := by
          intro he
          subst he
          rcases List.mem_append.1 hz2 with h2 | h2
          · exact hnbxs2 h2
          · exact hnbys2 h2
        exact (hiff z).2 ⟨hztl, hzne⟩
    · -- flags
      intro z hz
      dsimp only
      rw [herase]
      obtain ⟨hztl, hzne⟩ := (hiff z).1 hz
      by_cases hzb : z = b
      · subst hzb
        rw [updH_same]
        show (((remove_from_free_list s _).hdrs z).check_free = true ↔ _)
        rw [(rsz z).2]
        have hzfree : (s.hdrs z).check_free = true :=
          (hInv.flags z hztl).2 (List.mem_cons_self z fl)
        simp [hzfree]
      · rw [updH_other _ _ _ hzb]
        rw [(rsz z).2]
        rw [hInv.flags z hztl]
        simp only [List.mem_cons]
        constructor
        · rintro (he | hm)
          · exact absurd he hzb
          · refine Or.inr ?_
            rw [hfl] at hm
            rcases List.mem_append.1 hm with h2 | h2
            · exact List.mem_append.2 (Or.inl h2)
            · rcases List.mem_cons.1 h2 with h3 | h3
              · exact absurd h3 hzne
              · exact List.mem_append.2 (Or.inr h3)
        · rintro (he | hm)
          · exact absurd he hzb
          · exact Or.inr (hsubfl z hm)

theorem insert_inv {s : AllocState} {tl fl : List Nat} {b : Nat}
    (hInv : AllocInv s tl fl) (hb : b ∈ tl) (hflag : (s.hdrs b).check_free = false) :
    AllocInv (insert_into_free_list s b) tl (b :: fl) ∧
      (insert_into_free_list s b).used = s.used ∧
      (insert_into_free_list s b).mem = s.mem ∧
      ((insert_into_free_list s b).hdrs b).size = (s.hdrs b).size ∧
      ((insert_into_free_list s b).hdrs b).check_free = true ∧
      (∀ x, x ≠ b → ((insert_into_free_list s b).hdrs x).size = (s.hdrs x).size ∧
        ((insert_into_free_list s b).hdrs x).check_free = (s.hdrs x).check_free) := by
  have hbfl : b ∉ fl := by
    intro hm
    rw [(hInv.flags b hb).2 hm] at hflag
    cases hflag
  obtain ⟨ich, iused, imem, ifl, ihb, ioth⟩ := insert_spec hInv.chain hInv.fl_nodup hbfl
  refine ⟨⟨?_, ich, ?_, ?_, ?_⟩, iused, imem, by rw [ihb], by rw [ihb], ioth⟩
  · rw [iused]
    refine tilesOk_congr (fun x hx => ?_) hInv.tiles
    by_cases hxb : x = b
    · subst hxb
      rw [ihb]
    · exact (ioth x hxb).1
  · exact List.nodup_cons.2 ⟨hbfl, hInv.fl_nodup⟩
  · intro z hz
    rcases List.mem_cons.1 hz with rfl | hz2
    · exact hb
    · exact hInv.fl_sub z hz2
  · intro z hz
    by_cases hzb : z = b
    · subst hzb
      rw [ihb]
      simp
    · rw [(ioth z hzb).2, hInv.flags z hz]
      simp [List.mem_cons, hzb]

/-- `myfree` when the forward neighbour does not qualify for merging: the call
is exactly the free-list insertion, and the invariant is preserved. -/
theorem myfree_nomerge {s : AllocState} {tl fl : List Nat} {b : Nat}
    (hInv : AllocInv s tl fl) (hb : b ∈ tl) (hflag : (s.hdrs b).check_free = false)
    (hcond : ¬(b + HEADER + (s.hdrs b).size < s.used ∧
      (s.hdrs (b + HEADER + (s.hdrs b).size)).check_free = true)) :
    myfree s (some (b + HEADER)) = insert_into_free_list s b ∧
      AllocInv (insert_into_free_list s b) tl (b :: fl) := by
  obtain ⟨hInv2, iused, imem, isz, icf, ioth⟩ := insert_inv hInv hb hflag
  have hnbne : b + HEADER + (s.hdrs b).size ≠ b := by
    have := HEADER_pos
    omega
  have hcond2 : ¬(b + HEADER + ((insert_into_free_list s b).hdrs b).size <
        (insert_into_free_list s b).used ∧
      ((insert_into_free_list s b).hdrs
        (b + HEADER + ((insert_into_free_list s b).hdrs b).size)).check_free = true) := by
    rw [isz, iused]
    rintro ⟨h1, h2⟩
    rw [(ioth _ hnbne).2] at h2
    exact hcond ⟨h1, h2⟩
  rw [myfree_some]
  exact ⟨merge_head_no hInv2 hcond2, hInv2⟩

/-- `myfree` with a qualifying forward neighbour: the neighbour is absorbed,
`b`'s size grows by a header plus the neighbour's size, and the invariant is
preserved with the neighbour dropped from both the tiling and the free list. -/
theorem myfree_merge {s : AllocState} {tl fl : List Nat} {b : Nat}
    (hInv : AllocInv s tl fl) (hb : b ∈ tl) (hflag : (s.hdrs b).check_free = false)
    (hlt : b + HEADER + (s.hdrs b).size < s.used)
    (hfree : (s.hdrs (b + HEADER + (s.hdrs b).size)).check_free = true) :
    ((myfree s (some (b + HEADER))).hdrs b).size =
        (s.hdrs b).size + (HEADER + (s.hdrs (b + HEADER + (s.hdrs b).size)).size) ∧
      ((myfree s (some (b + HEADER))).hdrs b).check_free = true ∧
      (myfree s (some (b + HEADER))).used = s.used ∧
      (myfree s (some (b + HEADER))).mem = s.mem ∧
      (∀ x, x ≠ b → ((myfree s (some (b + HEADER))).hdrs x).size = (s.hdrs x).size ∧
        ((myfree s (some (b + HEADER))).hdrs x).check_free = (s.hdrs x).check_free) ∧
      ∃ tl2, AllocInv (myfree s (some (b + HEADER))) tl2
          (b :: fl.erase (b + HEADER + (s.hdrs b).size)) ∧
        (∀ x, x ∈ tl2 ↔ x ∈ tl ∧ x ≠ b + HEADER + (s.hdrs b).size) := by
  obtain ⟨hInv2, iused, imem, isz, icf, ioth⟩ := insert_inv hInv hb hflag
  have hnbne : b + HEADER + (s.hdrs b).size ≠ b := by
    have := HEADER_pos
    omega
  have hlt2 : b + HEADER + ((insert_into_free_list s b).hdrs b).size <
      (insert_into_free_list s b).used := by
    rw [isz, iused]
    exact hlt
  have hfree2 : ((insert_into_free_list s b).hdrs
      (b + HEADER + ((insert_into_free_list s b).hdrs b).size)).check_free = true := by
    rw [isz, (ioth _ hnbne).2]
    exact hfree
  obtain ⟨msz, mcf, mused, mmem, moth, tl2, hInv3, hiff⟩ := merge_head_yes hInv2 hlt2 hfree2
  rw [myfree_some]
  have hnbeq : b + HEADER + ((insert_into_free_list s b).hdrs b).size =
      b + HEADER + (s.hdrs b).size := by rw [isz]
  rw [hnbeq] at msz hInv3 hiff
  refine ⟨?_, ?_, ?_, ?_, ?_, ⟨tl2, ?_, hiff⟩⟩
  · rw [msz, isz, (ioth _ hnbne).1]
  · rw [mcf, icf]
  · rw [mused, iused]
  · rw [mmem, imem]
  · intro x hx
    obtain ⟨m1, m2⟩ := moth x hx
    obtain ⟨i1, i2⟩ := ioth x hx
    exact ⟨by rw [m1, i1], by rw [m2, i2]⟩
  · exact hInv3

/-! ## `myrealloc`, step preservation, reachability -/

theorem tilesOk_unique {h : Nat → Header} {e o : Nat} {l1 l2 : List Nat}
    (h1 : tilesOk h e o l1) (h2 : tilesOk h e o l2) : l1 = l2 := by
  induction l1 generalizing o l2 with
  | nil =>
    simp only [tilesOk] at h1
    subst h1
    exact (tilesOk_nil_of_end h2).symm
  | cons b l1 ih =>
    obtain ⟨rfl, h1⟩ := h1
    cases l2 with
    | nil =>
      simp only [tilesOk] at h2
      subst h2
      have := tilesOk_le h1
      have hH := HEADER_pos
      omega
    | cons b2 l2 =>
      obtain ⟨rfl, h2⟩ := h2
      rw [ih h1 h2]

theorem mymalloc_none {s : AllocState} {n : Nat} (h : (mymalloc s n).1 = none) :
    (mymalloc s n).2 = s := by
  cases hf : findFit s n (s.used + 1) s.free_list with
  | some c => simp [mymalloc_eq_fit hf] at h
  | none =>
    by_cases hcap : s.used + (HEADER + n) > CAP
    · rw [mymalloc_eq_fail hf hcap]
    · rw [mymalloc_eq_bump hf hcap] at h
      simp at h

theorem myrealloc_eq_tail {s : AllocState} {b n : Nat} (hn : n ≠ 0)
    (hend : b + HEADER + (s.hdrs b).size = s.used) :
    myrealloc s (some (b + HEADER)) n =
      (some (b + HEADER),
       { s with
         used := if (s.hdrs b).size < n then s.used + (n - (s.hdrs b).size)
                 else s.used - ((s.hdrs b).size - n),
         hdrs := updH s.hdrs b { s.hdrs b with size := n } }) := by
  simp only [myrealloc, if_neg hn, Nat.add_sub_cancel, if_pos hend]

theorem myrealloc_eq_interior {s : AllocState} {b n : Nat} (hn : n ≠ 0)
    (hend : ¬ b + HEADER + (s.hdrs b).size = s.used) :
    myrealloc s (some (b + HEADER)) n =
      (match mymalloc s n with
       | (some np, s1) =>
         (some np, myfree (memcpy s1 np (b + HEADER) (min (s.hdrs b).size n)) (some (b + HEADER)))
       | (none, s1) => (none, s1)) := by
  simp only [myrealloc, if_neg hn, Nat.add_sub_cancel, if_neg hend]

/-- In-place tail resize preserves the invariant with the same block lists. -/
theorem myrealloc_tail_inv {s : AllocState} {tl fl : List Nat} {b n : Nat}
    (hInv : AllocInv s tl fl) (hb : b ∈ tl) (hflag : (s.hdrs b).check_free = false)
    (hn : n ≠ 0) (hend : b + HEADER + (s.hdrs b).size = s.used) :
    (myrealloc s (some (b + HEADER)) n).1 = some (b + HEADER) ∧
      (myrealloc s (some (b + HEADER)) n).2.used = b + HEADER + n ∧
      AllocInv (myrealloc s (some (b + HEADER)) n).2 tl fl := by
  have hH := HEADER_pos
  have hbfl : b ∉ fl := by
    intro hm
    rw [(hInv.flags b hb).2 hm] at hflag
    cases hflag
  obtain ⟨l0, htl, hl0⟩ := tilesOk_last hInv.tiles hb hend
  have hbl0 : b ∉ l0 := by
    have hnd := tilesOk_nodup hInv.tiles
    rw [htl, List.nodup_append] at hnd
    exact fun h2 => hnd.2.2 h2 (by simp)
  have huse : (if (s.hdrs b).size < n then s.used + (n - (s.hdrs b).size)
      else s.used - ((s.hdrs b).size - n)) = b + HEADER + n := by
    by_cases hc : (s.hdrs b).size < n
    · rw [if_pos hc]
      omega
    · rw [if_neg hc]
      omega
  rw [myrealloc_eq_tail hn hend]
  dsimp only
  refine ⟨rfl, huse, ?_, ?_, hInv.fl_nodup, hInv.fl_sub, ?_⟩
  · dsimp only
    rw [huse, htl]
    refine tilesOk_resize (htl ▸ hInv.tiles) (fun x hx => ?_) (by rw [updH_same])
    have hxb : x ≠ b := fun he => hbl0 (he ▸ hx)
    rw [updH_other _ _ _ hxb]
  · dsimp only
    obtain ⟨pv2, hseg⟩ := hInv.chain
    refine ⟨pv2, chainSeg_congr (fun z hz => ?_) hseg⟩
    have hzb : z ≠ b := fun he => hbfl (he ▸ hz)
    rw [updH_other _ _ _ hzb]
    exact ⟨rfl, rfl⟩
  · intro z hz
    dsimp only
    by_cases hzb : z = b
    · subst hzb
      rw [updH_same]
      show ((s.hdrs z).check_free = true ↔ _)
      rw [hflag]
      simp only [Bool.false_eq_true, false_iff]
      exact fun hm => hbfl hm
    · rw [updH_other _ _ _ hzb]
      exact hInv.flags z hz

/-- The invariant ignores the payload memory, so `memcpy` preserves it. -/
theorem allocInv_memcpy {s : AllocState} {tl fl : List Nat} (d r k : Nat)
    (hInv : AllocInv s tl fl) : AllocInv (memcpy s d r k) tl fl :=
  ⟨hInv.tiles, hInv.chain, hInv.fl_nodup, hInv.fl_sub, hInv.flags⟩

theorem allocInv_empty (s : AllocState) (h1 : s.used = 0) (h2 : s.free_list = none) :
    AllocInv s [] [] := by
  refine ⟨?_, ⟨none, ?_⟩, List.nodup_nil, ?_, ?_⟩
  · show (0 : Nat) = s.used
    rw [h1]
  · rw [h2]
    exact ⟨rfl, rfl⟩
  · intro x hx
    cases hx
  · intro x hx
    cases hx

/-- `mymalloc` preserves the invariant for some block lists; moreover the old
tiling survives, allocated blocks stay allocated, and a failing call returns
the state unchanged. -/
theorem mymalloc_inv {s : AllocState} {tl fl : List Nat} (n : Nat)
    (hInv : AllocInv s tl fl) :
    ∃ tl2 fl2, AllocInv (mymalloc s n).2 tl2 fl2 ∧
      (∀ x ∈ tl, x ∈ tl2) ∧
      (∀ x ∈ tl, (s.hdrs x).check_free = false →
        ((mymalloc s n).2.hdrs x).check_free = false) := by
  cases hf : fl.find? (fun o => decide (n ≤ (s.hdrs o).size)) with
  | some c =>
    obtain ⟨xs, ys, hfl, hxs, hcd⟩ := find?_eq_some_decomp hf
    have hxs2 : ∀ o ∈ xs, (s.hdrs o).size < n := by
      intro o ho
      have := hxs o ho
      simp only [decide_eq_false_iff_not, Nat.not_le] at this
      exact this
    have hc2 : n ≤ (s.hdrs c).size := by simpa using hcd
    obtain ⟨h1, h2, h3, h4, hcf, hoth, hInv2⟩ := mymalloc_fit hInv hfl hxs2 hc2
    refine ⟨tl, xs ++ ys, hInv2, fun x hx => hx, ?_⟩
    intro x hx hfl0
    by_cases hxc : x = c
    · subst hxc
      exact hcf
    · rw [(hoth x hxc).2]
      exact hfl0
  | none =>
    have hno : ∀ o ∈ fl, (s.hdrs o).size < n := by
      intro o ho
      have := List.find?_eq_none.1 hf o ho
      simp only [decide_eq_true_eq, Nat.not_le] at this
      exact this
    by_cases hcap : s.used + (HEADER + n) > CAP
    · rw [mymalloc_nofit_fail hInv hno hcap]
      exact ⟨tl, fl, hInv, fun x hx => hx, fun x hx h2 => h2⟩
    · obtain ⟨h1, h2, h3, h4, h5, h6, h7, hInv2⟩ := mymalloc_nofit_bump hInv hno hcap
      refine ⟨tl ++ [s.used], fl, hInv2, fun x hx => List.mem_append.2 (Or.inl hx), ?_⟩
      intro x hx hfl0
      have hxu : x ≠ s.used := by
        have := tilesOk_mem_ub hInv.tiles hx
        have hH := HEADER_pos
        omega
      rw [h7 x hxu]
      exact hfl0

/-- `myfree` of an allocated block preserves the invariant. -/
theorem myfree_inv {s : AllocState} {tl fl : List Nat} {b : Nat}
    (hInv : AllocInv s tl fl) (hb : b ∈ tl) (hflag : (s.hdrs b).check_free = false) :
    ∃ tl2 fl2, AllocInv (myfree s (some (b + HEADER))) tl2 fl2 := by
  by_cases hcond : b + HEADER + (s.hdrs b).size < s.used ∧
      (s.hdrs (b + HEADER + (s.hdrs b).size)).check_free = true
  · obtain ⟨-, -, -, -, -, tl2, hInv3, -⟩ := myfree_merge hInv hb hflag hcond.1 hcond.2
    exact ⟨tl2, _, hInv3⟩
  · obtain ⟨heq, hInv2⟩ := myfree_nomerge hInv hb hflag hcond
    rw [heq]
    exact ⟨tl, b :: fl, hInv2⟩

/-- Every legal call preserves the allocator invariant. -/
theorem step_inv {s t : AllocState} (hst : AllocStep s t) {tl fl : List Nat}
    (hInv : AllocInv s tl fl) : ∃ tl2 fl2, AllocInv t tl2 fl2 := by
  cases hst with
  | malloc n =>
    obtain ⟨tl2, fl2, hInv2, -, -⟩ := mymalloc_inv n hInv
    exact ⟨tl2, fl2, hInv2⟩
  | free_null => exact ⟨tl, fl, hInv⟩
  | free b hb =>
    obtain ⟨⟨tl3, htl3, hbtl3⟩, hflag⟩ := hb
    have heq : tl3 = tl := tilesOk_unique htl3 hInv.tiles
    rw [heq] at hbtl3
    exact myfree_inv hInv hbtl3 hflag
  | realloc_null n =>
    by_cases hn : n = 0
    · subst hn
      exact ⟨tl, fl, hInv⟩
    · have heq : myrealloc s none n = mymalloc s n := by
        simp only [myrealloc, if_neg hn]
      rw [heq]
      obtain ⟨tl2, fl2, hInv2, -, -⟩ := mymalloc_inv n hInv
      exact ⟨tl2, fl2, hInv2⟩
  | realloc b n hb =>
    obtain ⟨⟨tl3, htl3, hbtl3⟩, hflag⟩ := hb
    have heq : tl3 = tl := tilesOk_unique htl3 hInv.tiles
    rw [heq] at hbtl3
    by_cases hn : n = 0
    · subst hn
      have heq2 : myrealloc s (some (b + HEADER)) 0 = (none, myfree s (some (b + HEADER))) := by
        simp [myrealloc]
      rw [heq2]
      exact myfree_inv hInv hbtl3 hflag
    · by_cases hend : b + HEADER + (s.hdrs b).size = s.used
      · obtain ⟨-, -, hInv2⟩ := myrealloc_tail_inv hInv hbtl3 hflag hn hend
        exact ⟨tl, fl, hInv2⟩
      · rw [myrealloc_eq_interior hn hend]
        cases hm : mymalloc s n with
        | mk r s1 =>
          cases r with
          | none =>
            dsimp only
            have hs1 : s1 = s := by
              have := mymalloc_none (n := n) (s := s) (by rw [hm])
              rw [hm] at this
              exact this
            subst hs1
            exact ⟨tl, fl, hInv⟩
          | some np =>
            dsimp only
            obtain ⟨tl2, fl2, hInv2, hsub2, hkeep2⟩ := mymalloc_inv n hInv
            rw [hm] at hInv2 hkeep2
            have hInv3 := allocInv_memcpy np (b + HEADER) (min (s.hdrs b).size n) hInv2
            refine myfree_inv hInv3 (hsub2 b hbtl3) ?_
            exact hkeep2 b hbtl3 hflag
  | reset => exact ⟨[], [], allocInv_empty _ rfl rfl⟩

/-- Every reachable state satisfies the allocator invariant. -/
theorem reach_inv {s : AllocState} (h : AllocReach s) : ∃ tl fl, AllocInv s tl fl := by
  induction h with
  | init h0 m0 => exact ⟨[], [], allocInv_empty _ rfl rfl⟩
  | step s t hr hst ih =>
    obtain ⟨tl, fl, hInv⟩ := ih
    exact step_inv hst hInv

/-! ## Frame lemmas: fields the operations never change -/

theorem updH_keep_cf {f : Nat → Header} {k : Nat} {v : Header}
    (hv : v.check_free = (f k).check_free) (x : Nat) :
    (updH f k v x).check_free = (f x).check_free := by
  by_cases hx : x = k
  · subst hx
    rw [updH_same, hv]
  · rw [updH_other _ _ _ hx]

theorem remove_used (s : AllocState) (b : Nat) :
    (remove_from_free_list s b).used = s.used := by
  unfold remove_from_free_list
  split <;> (dsimp only; split <;> rfl)

theorem remove_mem (s : AllocState) (b : Nat) :
    (remove_from_free_list s b).mem = s.mem := by
  unfold remove_from_free_list
  split <;> (dsimp only; split <;> rfl)

theorem remove_cf (s : AllocState) (b x : Nat) :
    ((remove_from_free_list s b).hdrs x).check_free = (s.hdrs x).check_free := by
  unfold remove_from_free_list
  split
  all_goals try dsimp only
  all_goals split
  all_goals try dsimp only
  · refine (updH_keep_cf ?_ x).trans (updH_keep_cf ?_ x) <;> rfl
  · refine updH_keep_cf ?_ x
    rfl
  · refine updH_keep_cf ?_ x
    rfl

theorem insert_used (s : AllocState) (b : Nat) :
    (insert_into_free_list s b).used = s.used := by
  unfold insert_into_free_list
  split <;> rfl

theorem insert_mem (s : AllocState) (b : Nat) :
    (insert_into_free_list s b).mem = s.mem := by
  unfold insert_into_free_list
  split <;> rfl

theorem insert_cf_self (s : AllocState) (b : Nat) :
    ((insert_into_free_list s b).hdrs b).check_free = true := by
  cases hfl : s.free_list with
  | none =>
    rw [insert_eq_none s b hfl]
    dsimp only
    rw [updH_same]
  | some y =>
    rw [insert_eq_some s b y hfl]
    dsimp only
    by_cases hby : b = y
    · subst hby
      rw [updH_same, updH_same]
    · rw [updH_other _ _ _ hby, updH_same]

theorem merge_fwd_cf (s : AllocState) (b x : Nat) :
    ((merge_fwd s b).hdrs x).check_free = (s.hdrs x).check_free := by
  unfold merge_fwd
  dsimp only
  split
  · dsimp only
    refine (updH_keep_cf ?_ x).trans (remove_cf _ _ x)
    rfl
  · rfl

theorem merge_fwd_used (s : AllocState) (b : Nat) :
    (merge_fwd s b).used = s.used := by
  unfold merge_fwd
  dsimp only
  split
  · exact remove_used _ _
  · rfl

theorem merge_fwd_mem (s : AllocState) (b : Nat) :
    (merge_fwd s b).mem = s.mem := by
  unfold merge_fwd
  dsimp only
  split
  · exact remove_mem _ _
  · rfl

theorem merge_bwd_cf (s : AllocState) (b x : Nat) :
    ((merge_bwd s b).hdrs x).check_free = (s.hdrs x).check_free := by
  unfold merge_bwd
  split
  · split
    · dsimp only
      refine (updH_keep_cf ?_ x).trans (remove_cf _ _ x)
      rfl
    · rfl
  · rfl

theorem merge_bwd_used (s : AllocState) (b : Nat) :
    (merge_bwd s b).used = s.used := by
  unfold merge_bwd
  split
  · split
    · exact remove_used _ _
    · rfl
  · rfl

theorem merge_bwd_mem (s : AllocState) (b : Nat) :
    (merge_bwd s b).mem = s.mem := by
  unfold merge_bwd
  split
  · split
    · exact remove_mem _ _
    · rfl
  · rfl

theorem merge_cf (s : AllocState) (b x : Nat) :
    ((merge_blocks s b).hdrs x).check_free = (s.hdrs x).check_free :=
  (merge_bwd_cf _ _ x).trans (merge_fwd_cf _ _ x)

theorem merge_used (s : AllocState) (b : Nat) :
    (merge_blocks s b).used = s.used :=
  (merge_bwd_used _ _).trans (merge_fwd_used _ _)

theorem merge_mem (s : AllocState) (b : Nat) :
    (merge_blocks s b).mem = s.mem :=
  (merge_bwd_mem _ _).trans (merge_fwd_mem _ _)

theorem myfree_mem (s : AllocState) (p : Option Nat) : (myfree s p).mem = s.mem := by
  cases p with
  | none => rfl
  | some q =>
    show (merge_blocks (insert_into_free_list s (q - HEADER)) (q - HEADER)).mem = s.mem
    rw [merge_mem, insert_mem]

theorem myfree_used (s : AllocState) (p : Option Nat) : (myfree s p).used = s.used := by
  cases p with
  | none => rfl
  | some q =>
    show (merge_blocks (insert_into_free_list s (q - HEADER)) (q - HEADER)).used = s.used
    rw [merge_used, insert_used]

theorem myfree_cf_self (s : AllocState) (b : Nat) :
    ((myfree s (some (b + HEADER))).hdrs b).check_free = true := by
  rw [myfree_some, merge_cf]
  exact insert_cf_self s b

theorem mymalloc_mem (s : AllocState) (n : Nat) : (mymalloc s n).2.mem = s.mem := by
  cases hf : findFit s n (s.used + 1) s.free_list with
  | some c =>
    rw [mymalloc_eq_fit hf]
    dsimp only
    exact remove_mem s c
  | none =>
    by_cases hcap : s.used + (HEADER + n) > CAP
    · rw [mymalloc_eq_fail hf hcap]
    · rw [mymalloc_eq_bump hf hcap]

/-! ## Invariant instances for the concrete states -/

theorem sOne_inv : AllocInv sOne [0] [0] := by
  refine ⟨⟨rfl, ?_⟩, ⟨some 0, ?_⟩, ?_, ?_, ?_⟩
  · show (0 + HEADER + (sOne.hdrs 0).size : Nat) = sOne.used
    decide
  · show chainSeg sOne.hdrs (some 0) none [0] none (some 0)
    refine ⟨rfl, ?_, ?_, rfl⟩
    · decide
    · decide
  · decide
  · intro b hb
    simpa using hb
  · intro b hb
    rcases List.mem_cons.1 hb with rfl | hb2
    · exact ⟨fun h2 => List.mem_cons_self 0 [], fun h2 => by decide⟩
    · cases hb2

theorem sTwo_inv : AllocInv sTwo [0, 64] [] := by
  refine ⟨⟨rfl, ?_, ?_⟩, ⟨none, rfl, rfl⟩, List.nodup_nil, ?_, ?_⟩
  · show (64 : Nat) = 0 + HEADER + (sTwo.hdrs 0).size
    decide
  · show (0 + HEADER + (sTwo.hdrs 0).size) + HEADER +
      (sTwo.hdrs (0 + HEADER + (sTwo.hdrs 0).size)).size = sTwo.used
    decide
  · intro b hb
    cases hb
  · intro b hb
    have hfalse : (sTwo.hdrs b).check_free = false := by
      rcases List.mem_cons.1 hb with rfl | hb2
      · decide
      · rcases List.mem_cons.1 hb2 with rfl | hb3
        · decide
        · cases hb3
    rw [hfalse]
    simp

/-! ## The claims -/

/-- Claim C1: when no free-list block can satisfy the request, `mymalloc`
either fails with the state entirely unchanged (request would push `used`
past `CAP`) or writes a fresh header at offset `used` with the requested size
and allocated state, advances `used` by `HEADER + size`, changes nothing else,
and returns the payload pointer just after the new header. -/
theorem claim_C1 {s : AllocState} {tl fl : List Nat} {n : Nat}
    (hInv : AllocInv s tl fl) (hno : ∀ o ∈ fl, (s.hdrs o).size < n) :
    (s.used + (HEADER + n) > CAP → mymalloc s n = (none, s)) ∧
      (¬ s.used + (HEADER + n) > CAP →
        (mymalloc s n).1 = some (s.used + HEADER) ∧
        (mymalloc s n).2.used = s.used + (HEADER + n) ∧
        ((mymalloc s n).2.hdrs s.used).size = n ∧
        ((mymalloc s n).2.hdrs s.used).check_free = false ∧
        (∀ x, x ≠ s.used → (mymalloc s n).2.hdrs x = s.hdrs x) ∧
        (mymalloc s n).2.free_list = s.free_list ∧
        (mymalloc s n).2.mem = s.mem) := by
  constructor
  · intro hcap
    exact mymalloc_nofit_fail hInv hno hcap
  · intro hcap
    obtain ⟨h1, h2, h3, h4, h5, h6, h7, -⟩ := mymalloc_nofit_bump hInv hno hcap
    exact ⟨h1, h2, h5, h6, h7, h4, h3⟩

/-- Witness for C1 at the freshly initialised state and request 5. -/
theorem claim_C1_witness :
    (sInit.used + (HEADER + 5) > CAP → mymalloc sInit 5 = (none, sInit)) ∧
      (¬ sInit.used + (HEADER + 5) > CAP →
        (mymalloc sInit 5).1 = some (sInit.used + HEADER) ∧
        (mymalloc sInit 5).2.used = sInit.used + (HEADER + 5) ∧
        ((mymalloc sInit 5).2.hdrs sInit.used).size = 5 ∧
        ((mymalloc sInit 5).2.hdrs sInit.used).check_free = false ∧
        (∀ x, x ≠ sInit.used → (mymalloc sInit 5).2.hdrs x = sInit.hdrs x) ∧
        (mymalloc sInit 5).2.free_list = sInit.free_list ∧
        (mymalloc sInit 5).2.mem = sInit.mem) :=
  claim_C1 (allocInv_empty sInit rfl rfl) (fun o ho => absurd ho (List.not_mem_nil o))

/-- Claim C2: in every state reachable by legal calls from `allocator_init`,
the blocks tile `[0, used)` contiguously: there is a block list starting at
offset 0 in which each block begins where the previous one ends, the last ends
exactly at `used`, and every byte below `used` lies in exactly one block. -/
theorem claim_C2 {s : AllocState} (hs : AllocReach s) :
    ∃ tl, tilesOk s.hdrs s.used 0 tl ∧
      ∀ i, i < s.used →
        ∃! b, b ∈ tl ∧ b ≤ i ∧ i < b + HEADER + (s.hdrs b).size := by
  obtain ⟨tl, fl, hInv⟩ := reach_inv hs
  exact ⟨tl, hInv.tiles, fun i hi => tilesOk_cover hInv.tiles (Nat.zero_le i) hi⟩

/-- Witness for C2 at a freshly initialised state. -/
theorem claim_C2_witness :
    ∃ tl, tilesOk (allocator_init (fun _ => ⟨0, false, none, none⟩) (fun _ => 0)).hdrs
        (allocator_init (fun _ => ⟨0, false, none, none⟩) (fun _ => 0)).used 0 tl ∧
      ∀ i, i < (allocator_init (fun _ => ⟨0, false, none, none⟩) (fun _ => 0)).used →
        ∃! b, b ∈ tl ∧ b ≤ i ∧
          i < b + HEADER +
            ((allocator_init (fun _ => ⟨0, false, none, none⟩) (fun _ => 0)).hdrs b).size :=
  claim_C2 (AllocReach.init (fun _ => ⟨0, false, none, none⟩) (fun _ => 0))

/-- Claim C3: in every reachable state the free list is a well-formed doubly
linked list, and a block of the tiling carries `check_free = true` exactly when
it is linked into the free list. -/
theorem claim_C3 {s : AllocState} (hs : AllocReach s) :
    ∃ tl fl, tilesOk s.hdrs s.used 0 tl ∧ chainOk s.hdrs s.free_list fl ∧
      ∀ b ∈ tl, ((s.hdrs b).check_free = true ↔ b ∈ fl) := by
  obtain ⟨tl, fl, hInv⟩ := reach_inv hs
  exact ⟨tl, fl, hInv.tiles, hInv.chain, hInv.flags⟩

/-- Witness for C3 at a freshly initialised state. -/
theorem claim_C3_witness :
    ∃ tl fl, tilesOk (allocator_init (fun _ => ⟨7, true, none, none⟩) (fun _ => 1)).hdrs
        (allocator_init (fun _ => ⟨7, true, none, none⟩) (fun _ => 1)).used 0 tl ∧
      chainOk (allocator_init (fun _ => ⟨7, true, none, none⟩) (fun _ => 1)).hdrs
        (allocator_init (fun _ => ⟨7, true, none, none⟩) (fun _ => 1)).free_list fl ∧
      ∀ b ∈ tl,
        (((allocator_init (fun _ => ⟨7, true, none, none⟩) (fun _ => 1)).hdrs b).check_free =
            true ↔ b ∈ fl) :=
  claim_C3 (AllocReach.init (fun _ => ⟨7, true, none, none⟩) (fun _ => 1))

/-- Counterexample to C9 as stated: `reallocate(null, 0)` does not behave like
`allocate(0)` — the `size == 0` test precedes the null test, so it frees the
null pointer (a no-op) and returns null, while `allocate(0)` succeeds with a
zero-payload bump allocation. -/
theorem claim_C9_counterexample :
    (myrealloc sInit none 0).1 = none ∧ (mymalloc sInit 0).1 = some HEADER ∧
      (myrealloc sInit none 0).2.used = 0 ∧ (mymalloc sInit 0).2.used = HEADER := by
  decide

/-- Claim C9 (amended): `free(null)` is a no-op; `reallocate(null, n)` behaves
exactly as `allocate(n)` for every `n > 0` (not for `n = 0`, where the
`size == 0` case wins); and `reallocate(p, 0)` behaves as `free(p)` and
returns no usable pointer. -/
theorem claim_C9 (s : AllocState) :
    myfree s none = s ∧
      (∀ n, 0 < n → myrealloc s none n = mymalloc s n) ∧
      (∀ p, myrealloc s p 0 = (none, myfree s p)) := by
  refine ⟨rfl, ?_, ?_⟩
  · intro n hn
    simp only [myrealloc, if_neg (Nat.pos_iff_ne_zero.1 hn)]
  · intro p
    simp [myrealloc]

/-- Witness for C9 at the initial state, `n = 3`, `p` the first payload. -/
theorem claim_C9_witness :
    myfree sInit none = sInit ∧ myrealloc sInit none 3 = mymalloc sInit 3 ∧
      myrealloc sInit (some HEADER) 0 = (none, myfree sInit (some HEADER)) := by
  obtain ⟨h1, h2, h3⟩ := claim_C9 sInit
  exact ⟨h1, h2 3 (by decide), h3 (some HEADER)⟩

/-- Counterexample to C10 as stated: `allocate(0)` can fail.  After
`allocate(CAP - HEADER)` fills the pool exactly (`used = CAP`, empty free
list), `allocate(0)` needs `used + HEADER > CAP` more bytes and returns null. -/
theorem claim_C10_counterexample :
    (mymalloc (mymalloc sInit (CAP - HEADER)).2 0).1 = none ∧
      (mymalloc sInit (CAP - HEADER)).2.free_list = none ∧
      (mymalloc sInit (CAP - HEADER)).2.used = CAP := by
  decide

/-- Claim C10 (amended): `allocate(0)` with a non-empty free list returns the
payload of the head free block without touching `used`; with an empty free
list it bump-allocates a zero-payload block (header size 0, `used` advanced by
exactly `HEADER`) provided `used + HEADER ≤ CAP`, and fails with the state
unchanged otherwise. -/
theorem claim_C10 {s : AllocState} {tl fl : List Nat} (hInv : AllocInv s tl fl) :
    (∀ c fl2, fl = c :: fl2 →
      (mymalloc s 0).1 = some (c + HEADER) ∧ (mymalloc s 0).2.used = s.used) ∧
      (fl = [] → ¬ s.used + HEADER > CAP →
        (mymalloc s 0).1 = some (s.used + HEADER) ∧
        (mymalloc s 0).2.used = s.used + HEADER ∧
        ((mymalloc s 0).2.hdrs s.used).size = 0) ∧
      (fl = [] → s.used + HEADER > CAP → mymalloc s 0 = (none, s)) := by
  refine ⟨?_, ?_, ?_⟩
  · intro c fl2 hfl
    obtain ⟨h1, h2, -⟩ := mymalloc_fit hInv (show fl = [] ++ c :: fl2 by simpa using hfl)
      (fun o ho => absurd ho (List.not_mem_nil o)) (Nat.zero_le _)
    exact ⟨h1, h2⟩
  · intro hfl hcap
    subst hfl
    obtain ⟨h1, h2, -, -, h5, -, -, -⟩ := mymalloc_nofit_bump hInv
      (fun o ho => absurd ho (List.not_mem_nil o))
      (show ¬ s.used + (HEADER + 0) > CAP by simpa using hcap)
    refine ⟨h1, by simpa using h2, h5⟩
  · intro hfl hcap
    subst hfl
    exact mymalloc_nofit_fail hInv (fun o ho => absurd ho (List.not_mem_nil o))
      (show s.used + (HEADER + 0) > CAP by simpa using hcap)

/-- Witness for C10 (amended) at the freshly initialised state. -/
theorem claim_C10_witness :
    (∀ c fl2, ([] : List Nat) = c :: fl2 →
      (mymalloc sInit 0).1 = some (c + HEADER) ∧ (mymalloc sInit 0).2.used = sInit.used) ∧
      (([] : List Nat) = [] → ¬ sInit.used + HEADER > CAP →
        (mymalloc sInit 0).1 = some (sInit.used + HEADER) ∧
        (mymalloc sInit 0).2.used = sInit.used + HEADER ∧
        ((mymalloc sInit 0).2.hdrs sInit.used).size = 0) ∧
      (([] : List Nat) = [] → sInit.used + HEADER > CAP → mymalloc sInit 0 = (none, sInit)) :=
  claim_C10 (allocInv_empty sInit rfl rfl)

/-- Claim C4: the forward-merge step of `free`.  The freed block heads the free
list, so with `nb := block + HEADER + size` the physically next header: if
`nb < used` and that neighbour is free, it is removed from the free list and
absorbed (the block's size grows by exactly `HEADER + neighbour.size`);
otherwise `merge_blocks` leaves the state entirely unchanged. -/
theorem claim_C4 {s : AllocState} {tl fl : List Nat} {b : Nat}
    (hInv : AllocInv s tl (b :: fl)) :
    (¬(b + HEADER + (s.hdrs b).size < s.used ∧
        (s.hdrs (b + HEADER + (s.hdrs b).size)).check_free = true) →
      merge_blocks s b = s) ∧
      (b + HEADER + (s.hdrs b).size < s.used →
        (s.hdrs (b + HEADER + (s.hdrs b).size)).check_free = true →
        ((merge_blocks s b).hdrs b).size =
            (s.hdrs b).size + (HEADER + (s.hdrs (b + HEADER + (s.hdrs b).size)).size) ∧
          (merge_blocks s b).used = s.used ∧
          chainOk (merge_blocks s b).hdrs (merge_blocks s b).free_list
            (b :: fl.erase (b + HEADER + (s.hdrs b).size)) ∧
          (b + HEADER + (s.hdrs b).size) ∉ b :: fl.erase (b + HEADER + (s.hdrs b).size)) := by
  constructor
  · exact merge_head_no hInv
  · intro hlt hfree
    obtain ⟨msz, -, mused, -, -, tl2, hInv3, -⟩ := merge_head_yes hInv hlt hfree
    refine ⟨msz, mused, hInv3.chain, ?_⟩
    intro hm
    have hnbne : b + HEADER + (s.hdrs b).size ≠ b := by
      have := HEADER_pos
      omega
    rcases List.mem_cons.1 hm with he | hm2
    · exact hnbne he
    · have hndfl : fl.Nodup := (List.nodup_cons.1 hInv.fl_nodup).2
      exact hndfl.not_mem_erase hm2

/-- Witness for C4: the state with a single free block (no forward neighbour,
so the no-merge case fires). -/
theorem claim_C4_witness :
    (¬(0 + HEADER + (sOne.hdrs 0).size < sOne.used ∧
        (sOne.hdrs (0 + HEADER + (sOne.hdrs 0).size)).check_free = true) →
      merge_blocks sOne 0 = sOne) ∧
      (0 + HEADER + (sOne.hdrs 0).size < sOne.used →
        (sOne.hdrs (0 + HEADER + (sOne.hdrs 0).size)).check_free = true →
        ((merge_blocks sOne 0).hdrs 0).size =
            (sOne.hdrs 0).size + (HEADER + (sOne.hdrs (0 + HEADER + (sOne.hdrs 0).size)).size) ∧
          (merge_blocks sOne 0).used = sOne.used ∧
          chainOk (merge_blocks sOne 0).hdrs (merge_blocks sOne 0).free_list
            (0 :: List.erase [] (0 + HEADER + (sOne.hdrs 0).size)) ∧
          (0 + HEADER + (sOne.hdrs 0).size) ∉
            0 :: List.erase [] (0 + HEADER + (sOne.hdrs 0).size)) :=
  claim_C4 sOne_inv

/-- Claim C8: `mymalloc` with a free list `xs ++ c :: ys` in which no block of
`xs` is large enough and `c` is (the first fit in head-to-tail order): `c` is
removed from the free list, its flag is cleared, its recorded size is left
unchanged (no split), its payload pointer is returned, and `used` does not
move. -/
theorem claim_C8 {s : AllocState} {tl fl xs ys : List Nat} {c n : Nat}
    (hInv : AllocInv s tl fl) (hfl : fl = xs ++ c :: ys)
    (hxs : ∀ o ∈ xs, (s.hdrs o).size < n) (hc : n ≤ (s.hdrs c).size) :
    (mymalloc s n).1 = some (c + HEADER) ∧
      (mymalloc s n).2.used = s.used ∧
      ((mymalloc s n).2.hdrs c).size = (s.hdrs c).size ∧
      ((mymalloc s n).2.hdrs c).check_free = false ∧
      chainOk (mymalloc s n).2.hdrs (mymalloc s n).2.free_list (xs ++ ys) ∧
      c ∉ xs ++ ys := by
  obtain ⟨h1, h2, h3, h4, h5, h6, hInv2⟩ := mymalloc_fit hInv hfl hxs hc
  refine ⟨h1, h2, h4, h5, hInv2.chain, ?_⟩
  subst hfl
  have hnd := hInv.fl_nodup
  rw [List.nodup_append] at hnd
  intro hm
  rcases List.mem_append.1 hm with h7 | h7
  · exact hnd.2.2 h7 (List.mem_cons_self c ys)
  · exact (List.nodup_cons.1 hnd.2.1).1 h7

/-- Witness for C8: the single-free-block state, request 16 fits block 0. -/
theorem claim_C8_witness :
    (mymalloc sOne 16).1 = some (0 + HEADER) ∧
      (mymalloc sOne 16).2.used = sOne.used ∧
      ((mymalloc sOne 16).2.hdrs 0).size = (sOne.hdrs 0).size ∧
      ((mymalloc sOne 16).2.hdrs 0).check_free = false ∧
      chainOk (mymalloc sOne 16).2.hdrs (mymalloc sOne 16).2.free_list ([] ++ []) ∧
      (0 : Nat) ∉ ([] ++ [] : List Nat) :=
  claim_C8 sOne_inv rfl (fun o ho => absurd ho (List.not_mem_nil o)) (by decide)

/-- Claim C6: `reallocate` on the tail block (payload end equal to `base +
used`) with `new_size > 0` resizes in place: `used` advances by the size delta
when growing and retreats when shrinking, the header's size becomes
`new_size`, the same pointer is returned, and no data moves. -/
theorem claim_C6 {s : AllocState} {b n : Nat} (hn : n ≠ 0)
    (hend : b + HEADER + (s.hdrs b).size = s.used) :
    (myrealloc s (some (b + HEADER)) n).1 = some (b + HEADER) ∧
      ((s.hdrs b).size < n →
        (myrealloc s (some (b + HEADER)) n).2.used = s.used + (n - (s.hdrs b).size)) ∧
      (¬ (s.hdrs b).size < n →
        (myrealloc s (some (b + HEADER)) n).2.used = s.used - ((s.hdrs b).size - n)) ∧
      ((myrealloc s (some (b + HEADER)) n).2.hdrs b).size = n ∧
      (∀ x, x ≠ b → (myrealloc s (some (b + HEADER)) n).2.hdrs x = s.hdrs x) ∧
      (myrealloc s (some (b + HEADER)) n).2.mem = s.mem ∧
      (myrealloc s (some (b + HEADER)) n).2.free_list = s.free_list := by
  rw [myrealloc_eq_tail hn hend]
  dsimp only
  refine ⟨rfl, ?_, ?_, by rw [updH_same], fun x hx => updH_other _ _ _ hx, rfl, rfl⟩
  · intro hc
    rw [if_pos hc]
  · intro hc
    rw [if_neg hc]

/-- Witness for C6: shrinking the single tail block from 32 to 16 bytes. -/
theorem claim_C6_witness :
    (myrealloc sOneAlloc (some (0 + HEADER)) 16).1 = some (0 + HEADER) ∧
      ((sOneAlloc.hdrs 0).size < 16 →
        (myrealloc sOneAlloc (some (0 + HEADER)) 16).2.used =
          sOneAlloc.used + (16 - (sOneAlloc.hdrs 0).size)) ∧
      (¬ (sOneAlloc.hdrs 0).size < 16 →
        (myrealloc sOneAlloc (some (0 + HEADER)) 16).2.used =
          sOneAlloc.used - ((sOneAlloc.hdrs 0).size - 16)) ∧
      ((myrealloc sOneAlloc (some (0 + HEADER)) 16).2.hdrs 0).size = 16 ∧
      (∀ x, x ≠ 0 → (myrealloc sOneAlloc (some (0 + HEADER)) 16).2.hdrs x = sOneAlloc.hdrs x) ∧
      (myrealloc sOneAlloc (some (0 + HEADER)) 16).2.mem = sOneAlloc.mem ∧
      (myrealloc sOneAlloc (some (0 + HEADER)) 16).2.free_list = sOneAlloc.free_list :=
  claim_C6 (by decide) (by decide)

/-- Claim C7: `reallocate` on a non-tail block with `new_size > 0` composes
`allocate`, a copy of `min(old_size, new_size)` payload bytes, and `free` of
the old block; if the fresh allocation fails the call returns null and the
state — the original block included — is exactly unchanged. -/
theorem claim_C7 {s : AllocState} {b n : Nat} (hn : n ≠ 0)
    (hend : ¬ b + HEADER + (s.hdrs b).size = s.used) :
    ((mymalloc s n).1 = none → myrealloc s (some (b + HEADER)) n = (none, s)) ∧
      (∀ w u, mymalloc s n = (some w, u) →
        (myrealloc s (some (b + HEADER)) n).1 = some w ∧
        (∀ i, i < min (s.hdrs b).size n →
          (myrealloc s (some (b + HEADER)) n).2.mem (w + i) = s.mem (b + HEADER + i)) ∧
        ((myrealloc s (some (b + HEADER)) n).2.hdrs b).check_free = true) := by
  constructor
  · intro h0
    rw [myrealloc_eq_interior hn hend]
    cases hf : findFit s n (s.used + 1) s.free_list with
    | some c =>
      rw [mymalloc_eq_fit hf] at h0
      simp at h0
    | none =>
      by_cases hcap : s.used + (HEADER + n) > CAP
      · rw [mymalloc_eq_fail hf hcap]
      · rw [mymalloc_eq_bump hf hcap] at h0
        simp at h0
  · intro w u hm
    rw [myrealloc_eq_interior hn hend, hm]
    dsimp only
    refine ⟨rfl, ?_, myfree_cf_self _ b⟩
    intro i hi
    rw [myfree_mem]
    have hu : u.mem = s.mem := by
      have h2 := mymalloc_mem s n
      rw [hm] at h2
      exact h2
    unfold memcpy
    dsimp only
    rw [if_pos ⟨Nat.le_add_right w i, by omega⟩, hu]
    congr 1
    omega

/-- Witness for C7: interior block 0 (block 64 sits after it) of `sTwo`,
reallocated to 8 bytes. -/
theorem claim_C7_witness :
    ((mymalloc sTwo 8).1 = none → myrealloc sTwo (some (0 + HEADER)) 8 = (none, sTwo)) ∧
      (∀ w u, mymalloc sTwo 8 = (some w, u) →
        (myrealloc sTwo (some (0 + HEADER)) 8).1 = some w ∧
        (∀ i, i < min (sTwo.hdrs 0).size 8 →
          (myrealloc sTwo (some (0 + HEADER)) 8).2.mem (w + i) = sTwo.mem (0 + HEADER + i)) ∧
        ((myrealloc sTwo (some (0 + HEADER)) 8).2.hdrs 0).check_free = true) :=
  claim_C7 (by decide) (by decide)

/-- Counterexample to C5 as stated: freeing two physically adjacent blocks in
head-then-tail order does NOT coalesce them.  With two 32-byte blocks at
offsets 0 and 64, `free(p1); free(p2)` leaves two separate free blocks of
size 32 (not one of size 96), and a subsequent `allocate(96)` bump-allocates,
raising `used` from 128 to 256. -/
theorem claim_C5_counterexample :
    c5state.used = 128 ∧
      (c5state.hdrs 0).size = 32 ∧ (c5state.hdrs 0).check_free = true ∧
      (c5state.hdrs 64).size = 32 ∧ (c5state.hdrs 64).check_free = true ∧
      c5state.free_list = some 64 ∧
      (mymalloc c5state 96).1 = some (128 + HEADER) ∧
      (mymalloc c5state 96).2.used = 256 := by
  decide

/-- Claim C5 (amended): for two physically adjacent allocated blocks whose
tail has no qualifying forward neighbour of its own, freeing them
tail-then-head leaves one free block whose size is the two payload sizes plus
one reclaimed header, with `used` unchanged; a subsequent allocation of
exactly the combined size is served from that block (first fit at the list
head) without increasing `used`.  (Head-then-tail does not coalesce — see the
counterexample.) -/
theorem claim_C5 {s : AllocState} {tl fl : List Nat} {b1 b2 : Nat}
    (hInv : AllocInv s tl fl)
    (hb1 : b1 ∈ tl) (hf1 : (s.hdrs b1).check_free = false)
    (hadj : b2 = b1 + HEADER + (s.hdrs b1).size)
    (hb2 : b2 ∈ tl) (hf2 : (s.hdrs b2).check_free = false)
    (hnb2 : ¬(b2 + HEADER + (s.hdrs b2).size < s.used ∧
      (s.hdrs (b2 + HEADER + (s.hdrs b2).size)).check_free = true)) :
    ((myfree (myfree s (some (b2 + HEADER))) (some (b1 + HEADER))).hdrs b1).size =
        (s.hdrs b1).size + HEADER + (s.hdrs b2).size ∧
      ((myfree (myfree s (some (b2 + HEADER))) (some (b1 + HEADER))).hdrs b1).check_free =
        true ∧
      (myfree (myfree s (some (b2 + HEADER))) (some (b1 + HEADER))).used = s.used ∧
      ∃ u, mymalloc (myfree (myfree s (some (b2 + HEADER))) (some (b1 + HEADER)))
          ((s.hdrs b1).size + HEADER + (s.hdrs b2).size) =
          (some (b1 + HEADER), u) ∧ u.used = s.used := by
  have hH := HEADER_pos
  have hne12 : b1 ≠ b2 := by omega
  obtain ⟨heq1, hInv1⟩ := myfree_nomerge hInv hb2 hf2 hnb2
  obtain ⟨-, iused, imem, isz2, icf2, ioth⟩ := insert_inv hInv hb2 hf2
  have hf1i : ((insert_into_free_list s b2).hdrs b1).check_free = false := by
    rw [(ioth b1 hne12).2]
    exact hf1
  have hsz1 : ((insert_into_free_list s b2).hdrs b1).size = (s.hdrs b1).size :=
    (ioth b1 hne12).1
  have hnb : b1 + HEADER + ((insert_into_free_list s b2).hdrs b1).size = b2 := by
    rw [hsz1, ← hadj]
  have hlt : b1 + HEADER + ((insert_into_free_list s b2).hdrs b1).size <
      (insert_into_free_list s b2).used := by
    rw [hnb, iused]
    have := tilesOk_mem_ub hInv.tiles hb2
    omega
  have hfree : ((insert_into_free_list s b2).hdrs
      (b1 + HEADER + ((insert_into_free_list s b2).hdrs b1).size)).check_free = true := by
    rw [hnb]
    exact icf2
  obtain ⟨msz, mcf, mused, mmem, moth, tl2, hInv2, hiff⟩ := myfree_merge hInv1 hb1 hf1i hlt hfree
  rw [hnb] at msz hInv2 hiff
  rw [List.erase_cons_head] at hInv2
  rw [heq1]
  have hszfinal :
      ((myfree (insert_into_free_list s b2) (some (b1 + HEADER))).hdrs b1).size =
        (s.hdrs b1).size + HEADER + (s.hdrs b2).size := by
    rw [msz, hsz1, isz2]
    omega
  refine ⟨hszfinal, mcf, by rw [mused, iused], ?_⟩
  have hle : (s.hdrs b1).size + HEADER + (s.hdrs b2).size ≤
      ((myfree (insert_into_free_list s b2) (some (b1 + HEADER))).hdrs b1).size := by
    rw [hszfinal]
  obtain ⟨h1, h2, -⟩ := mymalloc_fit hInv2 (List.nil_append (b1 :: fl)).symm
    (fun o ho => absurd ho (List.not_mem_nil o)) hle
  refine ⟨(mymalloc (myfree (insert_into_free_list s b2) (some (b1 + HEADER)))
      ((s.hdrs b1).size + HEADER + (s.hdrs b2).size)).2, ?_, ?_⟩
  · exact Prod.ext h1 rfl
  · rw [h2, mused, iused]

/-- Witness for C5 (amended): the two adjacent allocated 32-byte blocks of
`sTwo`, freed tail-then-head, then `allocate(96)`. -/
theorem claim_C5_witness :
    ((myfree (myfree sTwo (some (64 + HEADER))) (some (0 + HEADER))).hdrs 0).size =
        (sTwo.hdrs 0).size + HEADER + (sTwo.hdrs 64).size ∧
      ((myfree (myfree sTwo (some (64 + HEADER))) (some (0 + HEADER))).hdrs 0).check_free =
        true ∧
      (myfree (myfree sTwo (some (64 + HEADER))) (some (0 + HEADER))).used = sTwo.used ∧
      ∃ u, mymalloc (myfree (myfree sTwo (some (64 + HEADER))) (some (0 + HEADER)))
          ((sTwo.hdrs 0).size + HEADER + (sTwo.hdrs 64).size) =
          (some (0 + HEADER), u) ∧ u.used = sTwo.used :=
  claim_C5 sTwo_inv (by decide) (by decide) (by decide) (by decide) (by decide) (by decide)
